import Mathlib

/-!
Shallow embedding of the saxophone streaming XML tokenizer
(`lib/Saxophone.js`) and of its two static helpers
(`lib/static/attrs.js` and `lib/static/entities.js`).

JavaScript strings are modelled as `List Char` (sequences of Unicode
scalar values).  The JS primitives used by the source are modelled by
explicit helpers: `jsIndexOfFrom` for `hay.indexOf(pat, start)` (with
`none` in place of `-1`), `jsSlice` for `hay.slice(a, b)`, `List.get?`
for character access (with `none` in place of `undefined`).

Loops of the source are translated to structurally fuel-indexed
recursions together with lemmas showing that the chosen fuel always
suffices, so that all definitions compute.
-/

/-- First index at which `pat` occurs as a contiguous run inside `l`
(JS `hay.indexOf(pat)`; `none` in place of `-1`). -/
def subIdx (pat : List Char) : List Char → Option Nat
  | [] => if pat.isEmpty then some 0 else none
  | c :: t => if pat.isPrefixOf (c :: t) then some 0 else (subIdx pat t).map (· + 1)

/-- JS `hay.indexOf(pat, start)`. -/
def jsIndexOfFrom (hay pat : List Char) (start : Nat) : Option Nat :=
  (subIdx pat (hay.drop start)).map (· + start)

/-- JS `hay.slice(a, b)` for non-negative clamped indices. -/
def jsSlice (l : List Char) (a b : Nat) : List Char := (l.drop a).take (b - a)

/-- First index at which a character satisfying `p` occurs
(JS `str.search(regex)` for a single-character class regex). -/
def pIdx (p : Char → Bool) : List Char → Option Nat
  | [] => none
  | c :: t => if p c then some 0 else (pIdx p t).map (· + 1)

/-- The double-quote character. -/
def dquote : Char := Char.ofNat 34

/-- The single-quote character. -/
def squote : Char := Char.ofNat 39

/-- The character class matched by the JavaScript regex `/\s/` (also the
set recognized by the `StrWhiteSpace` step of JS `parseInt`): ASCII
whitespace, NBSP, BOM, Unicode space separators and line separators. -/
def isJsWs (c : Char) : Bool :=
  c == ' ' || c == '\t' || c == '\n' || c == '\r' ||
  c == '\x0B' || c == '\x0C' || c == '\u00A0' || c == '\u1680' ||
  (('\u2000' <= c) && (c <= '\u200A')) ||
  c == '\u2028' || c == '\u2029' || c == '\u202F' || c == '\u205F' ||
  c == '\u3000' || c == '\uFEFF'

/-- `isWhitespace` from `lib/util.js` (source text in the tarball's
unnamed part 000): space, carriage return, line feed or tab. -/
def isWhitespace (c : Char) : Bool :=
  c == ' ' || c == '\r' || c == '\n' || c == '\t'

/-- Value of a single digit character under the given radix, `none` if
the character is not a digit of that radix (JS `parseInt` digit test). -/
def digitVal (radix : Nat) (c : Char) : Option Nat :=
  if '0' ≤ c ∧ c ≤ '9' then
    if c.toNat - 48 < radix then some (c.toNat - 48) else none
  else if 'a' ≤ c ∧ c ≤ 'z' then
    if c.toNat - 87 < radix then some (c.toNat - 87) else none
  else if 'A' ≤ c ∧ c ≤ 'Z' then
    if c.toNat - 55 < radix then some (c.toNat - 55) else none
  else none

/-- Numeric value of a digit string under the given radix. -/
def digitsVal (radix : Nat) (ds : List Char) : Nat :=
  ds.foldl (fun acc c => acc * radix + ((digitVal radix c).getD 0)) 0

/-- JS `parseInt(s, radix)` for radix 10 or 16: skip leading whitespace,
read an optional sign, strip an optional `0x`/`0X` prefix when the radix
is 16, then read the maximal prefix of radix digits; `none` models NaN. -/
def jsParseInt (s : List Char) (radix : Nat) : Option Int :=
  let s1 := s.dropWhile isJsWs
  let sign : Int := if s1.head? = some '-' then -1 else 1
  let s2 := if s1.head? = some '-' ∨ s1.head? = some '+' then s1.tail else s1
  let s3 :=
    if radix = 16 ∧ s2.head? = some '0' ∧ (s2.get? 1 = some 'x' ∨ s2.get? 1 = some 'X')
    then s2.drop 2 else s2
  let ds := s3.takeWhile (fun c => (digitVal radix c).isSome)
  if ds.isEmpty then none else some (sign * (digitsVal radix ds : Nat))

/-- JS `String.fromCharCode(v)`: the UTF-16 code unit at `v mod 2^16`
(for code-unit values in the surrogate range, which no theorem below
relies on, `Char.ofNat` falls back to `U+0000`). -/
def fromCharCode (v : Int) : Char := Char.ofNat ((v % 65536).toNat)

/-- Replacement for one recognized reference of `parseEntities`
(`lib/static/entities.js`): the slice `entity` runs from the `&` up to,
not including, the terminating `;`. -/
def expandEntity (entity : List Char) : List Char :=
  if entity = String.toList "&quot" then [dquote]
  else if entity = String.toList "&amp" then ['&']
  else if entity = String.toList "&apos" then [squote]
  else if entity = String.toList "&lt" then ['<']
  else if entity = String.toList "&gt" then ['>']
  else if entity.get? 1 ≠ some '#' then entity ++ [';']
  else if entity.get? 2 = some 'x' then
    match jsParseInt (entity.drop 3) 16 with
    | none => entity ++ [';']
    | some v => [fromCharCode v]
  else
    match jsParseInt (entity.drop 2) 10 with
    | none => entity ++ [';']
    | some v => [fromCharCode v]

/-- The `while` loop of `parseEntities`, from cursor `pos`; returns the
concatenation of the parts pushed from this point on.  When the next `&`
has no following `;` the source `break`s out of the loop without
advancing `position`, so the final `parts.push(input.slice(position))`
re-copies the slice `pre` that was already pushed. -/
def parseEntitiesLoop : Nat → List Char → Nat → Option (List Char)
  | 0, _, _ => none
  | fuel+1, input, pos =>
    match jsIndexOfFrom input ['&'] pos with
    | none => some (input.drop pos)
    | some next =>
      let pre := jsSlice input pos next
      match jsIndexOfFrom input [';'] next with
      | none => some (pre ++ input.drop pos)
      | some semi =>
        let entity := jsSlice input next semi
        (parseEntitiesLoop fuel input (semi+1)).map
          (fun rest => pre ++ expandEntity entity ++ rest)

/-- `parseEntities` restarted at cursor `pos` with always-sufficient fuel. -/
def parseEntitiesFrom (input : List Char) (pos : Nat) : List Char :=
  (parseEntitiesLoop (input.length + 1 - pos) input pos).getD []

/-- `parseEntities` from `lib/static/entities.js`. -/
def parseEntities (input : List Char) : List Char := parseEntitiesFrom input 0

/-- An ordered attribute map, as built by sequential insertion into a JS
object: a later binding for an existing name overwrites the value in
place, a new name is appended. -/
abbrev AttrList : Type := List (List Char × List Char)

instance : DecidableEq (Except String AttrList) := fun x y =>
  match x, y with
  | .error a, .error b =>
    if h : a = b then .isTrue (by rw [h]) else .isFalse (by simp [h])
  | .ok a, .ok b =>
    if h : a = b then .isTrue (by rw [h]) else .isFalse (by simp [h])
  | .error _, .ok _ => .isFalse (by simp)
  | .ok _, .error _ => .isFalse (by simp)

/-- JS `attrs[name] = value` on an ordered object. -/
def jsInsert (m : AttrList) (k v : List Char) : AttrList :=
  if (m.map Prod.fst).contains k then
    m.map (fun p => if p.1 = k then (k, v) else p)
  else m ++ [(k, v)]

/-- The inner `while` loop of `parseAttrs` (`lib/static/attrs.js`) that
scans an attribute name, applied to the suffix of the input starting at
the current cursor: the offset of the first `=` (or of the end of the
suffix), or the error thrown when a whitespace character is met first. -/
def scanName : List Char → Except String Nat
  | [] => .ok 0
  | c :: t =>
    if c = '=' then .ok 0
    else if isWhitespace c then .error "Attribute names may not contain whitespace"
    else (scanName t).map (· + 1)

/-- The outer `while` loop of `parseAttrs`, from cursor `pos`. -/
def parseAttrsLoop : Nat → List Char → Nat → AttrList → Option (Except String AttrList)
  | 0, _, _, _ => none
  | fuel+1, input, pos, attrs =>
    match input.get? pos with
    | none => some (.ok attrs)
    | some c =>
      if isWhitespace c then parseAttrsLoop fuel input (pos+1) attrs
      else
        match scanName (input.drop pos) with
        | .error m => some (.error m)
        | .ok k =>
          if input.length ≤ pos + k then
            some (.error "Expected a value for the attribute")
          else
            let attrName := jsSlice input pos (pos + k)
            match input.get? (pos + k + 1) with
            | none => some (.error "Attribute values should be quoted")
            | some q =>
              if q ≠ dquote ∧ q ≠ squote then
                some (.error "Attribute values should be quoted")
              else
                match jsIndexOfFrom input [q] (pos + k + 2) with
                | none => some (.error "Unclosed attribute value")
                | some endQuote =>
                  parseAttrsLoop fuel input (endQuote + 1)
                    (jsInsert attrs attrName (jsSlice input (pos + k + 2) endQuote))

/-- `parseAttrs` restarted at cursor `pos` with always-sufficient fuel. -/
def parseAttrsFrom (input : List Char) (pos : Nat) (attrs : AttrList) :
    Except String AttrList :=
  (parseAttrsLoop (input.length + 1 - pos) input pos attrs).getD (.ok attrs)

/-- `parseAttrs` from `lib/static/attrs.js`. -/
def parseAttrs (input : List Char) : Except String AttrList :=
  parseAttrsFrom input 0 []

/-- One step of the attribute grammar read off the specification's
wording (§4.2), with the end-of-input-after-`=` case amended to the
"Attribute values should be quoted" error: skip a run of whitespace,
read a name as the maximal run of non-`=` non-whitespace characters
(whitespace met before the `=` is fatal), require `=`, require a quote,
read up to the matching quote, record the binding, continue. -/
def parseAttrsSpecLoop : Nat → List Char → AttrList → Option (Except String AttrList)
  | 0, _, _ => none
  | fuel+1, l, attrs =>
    match l.dropWhile isWhitespace with
    | [] => some (.ok attrs)
    | c0 :: t0 =>
      let name := (c0 :: t0).takeWhile (fun c => ¬ c = '=' ∧ ¬ isWhitespace c)
      match (c0 :: t0).drop name.length with
      | [] => some (.error "Expected a value for the attribute")
      | c :: rest1 =>
        if isWhitespace c then
          some (.error "Attribute names may not contain whitespace")
        else
          match rest1 with
          | [] => some (.error "Attribute values should be quoted")
          | q :: rest2 =>
            if q ≠ dquote ∧ q ≠ squote then
              some (.error "Attribute values should be quoted")
            else
              match subIdx [q] rest2 with
              | none => some (.error "Unclosed attribute value")
              | some j =>
                parseAttrsSpecLoop fuel (rest2.drop (j+1))
                  (jsInsert attrs name (rest2.take j))

/-- The specification-side loop with always-sufficient fuel. -/
def parseAttrsSpecRun (l : List Char) (attrs : AttrList) : Except String AttrList :=
  (parseAttrsSpecLoop (l.length + 1) l attrs).getD (.ok attrs)

/-- The specification-side attribute parser (§4.2, amended). -/
def parseAttrsSpec (input : List Char) : Except String AttrList :=
  parseAttrsSpecRun input []

/-- Serialization of an attribute mapping as `name="value"` pairs joined
by single spaces (§8, universal property 5). -/
def serializeAttrs : AttrList → List Char
  | [] => []
  | [p] => p.1 ++ '=' :: dquote :: p.2 ++ [dquote]
  | p :: rest => (p.1 ++ '=' :: dquote :: p.2 ++ [dquote]) ++ ' ' :: serializeAttrs rest

/-- Node kinds stored in the tokenizer's waiting slot (the `Node`
constant of `lib/Saxophone.js`). -/
inductive NodeKind where
  | text
  | cdata
  | comment
  | markupDeclaration
  | processingInstruction
  | tagOpen
  | tagClose
deriving DecidableEq, Repr

/-- Token events emitted by the tokenizer. -/
inductive Event where
  | text (contents : List Char)
  | cdata (contents : List Char)
  | comment (contents : List Char)
  | processingInstruction (contents : List Char)
  | tagOpen (name : List Char) (attrs : List Char) (isSelfClosing : Bool)
  | tagClose (name : List Char)
deriving DecidableEq, Repr

/-- Errors passed to the `_parseChunk` / `_final` callbacks, by payload;
`message` below renders the exact strings of the source. -/
inductive SaxErr where
  | unexpectedDashes
  | unrecognizedSequence (c : Char)
  | unclosedTag (popped : Option (List Char))
  | tagNameWhitespace
  | unclosedTags (names : List (List Char))
deriving DecidableEq, Repr

/-- The exact message string carried by each error of the source
(`undefined` is what JS interpolates for a pop from an empty stack). -/
def SaxErr.message : SaxErr → String
  | .unexpectedDashes => "Unexpected -- inside comment"
  | .unrecognizedSequence c => "Unrecognized sequence: <!" ++ String.mk [c]
  | .unclosedTag none => "Unclosed tag: undefined"
  | .unclosedTag (some p) => "Unclosed tag: " ++ String.mk p
  | .tagNameWhitespace => "Tag names may not start with whitespace"
  | .unclosedTags names =>
    "Unclosed tags: " ++ String.intercalate "," (names.map String.mk)

/-- Result of one `_parseChunk` call: the events emitted, the waiting
slot and tag stack on return, and the error passed to the callback. -/
structure RunRes where
  events : List Event
  waiting : Option (NodeKind × List Char)
  stack : List (List Char)
  err : Option SaxErr
deriving DecidableEq, Repr

/-- Outcome of the tag-dispatching part of one iteration of the
`_parseChunk` loop (everything after the cursor has been positioned on a
`<`): either the call returns (wait or error), or the loop continues at
a new cursor position with possibly updated stack. -/
inductive TagStep where
  | done (r : RunRes)
  | cont (events : List Event) (next : Nat) (stack : List (List Char))
deriving DecidableEq, Repr

/-- The literal `CDATA[` that `_parseChunk` matches via
`'CDATA['.indexOf(...) > -1`. -/
def cdataLit : List Char := String.toList "CDATA["

/-- One iteration of the `_parseChunk` loop of `lib/Saxophone.js` from a
cursor `pos` such that `input[pos] = '<'`, lines 234–394 of the source.
Every `indexOf`, slice bound and guard mirrors the source; pushes into
the tag stack append at the end (JS `push`/`pop` work on the tail). -/
def handleTag (input : List Char) (pos : Nat) (stack : List (List Char)) : TagStep :=
  let pos1 := pos + 1
  if input.get? pos1 = some '!' then
    let pos2 := pos1 + 1
    match input.get? pos2 with
    | none => .done ⟨[], some (.markupDeclaration, input.drop (pos2 - 2)), stack, none⟩
    | some c2 =>
      if c2 = '[' ∧ (subIdx (jsSlice input (pos2 + 1) (pos2 + 7)) cdataLit).isSome then
        let pos3 := pos2 + 7
        match jsIndexOfFrom input (String.toList "]]>") pos3 with
        | none => .done ⟨[], some (.cdata, input.drop (pos3 - 9)), stack, none⟩
        | some cdataClose =>
          .cont [.cdata (jsSlice input pos3 cdataClose)] (cdataClose + 3) stack
      else if c2 = '-' ∧ input.get? (pos2 + 1) = some '-' then
        let pos3 := pos2 + 2
        match jsIndexOfFrom input (String.toList "--") pos3 with
        | none => .done ⟨[], some (.comment, input.drop (pos3 - 4)), stack, none⟩
        | some commentClose =>
          if input.get? (commentClose + 2) ≠ some '>' then
            .done ⟨[], none, stack, some .unexpectedDashes⟩
          else
            .cont [.comment (jsSlice input pos3 commentClose)] (commentClose + 3) stack
      else .done ⟨[], none, stack, some (.unrecognizedSequence c2)⟩
  else if input.get? pos1 = some '?' then
    let pos2 := pos1 + 1
    match jsIndexOfFrom input (String.toList "?>") pos2 with
    | none => .done ⟨[], some (.processingInstruction, input.drop (pos2 - 2)), stack, none⟩
    | some piClose =>
      .cont [.processingInstruction (jsSlice input pos2 piClose)] (piClose + 2) stack
  else
    match jsIndexOfFrom input ['>'] pos1 with
    | none => .done ⟨[], some (.tagOpen, input.drop (pos1 - 1)), stack, none⟩
    | some tagClose =>
      if input.get? pos1 = some '/' then
        let tagName := jsSlice input (pos1 + 1) tagClose
        match stack.getLast? with
        | none => .done ⟨[], none, [], some (.unclosedTag none)⟩
        | some popped =>
          if popped ≠ tagName then
            .done ⟨[], none, [], some (.unclosedTag (some popped))⟩
          else
            .cont [.tagClose tagName] (tagClose + 1) stack.dropLast
      else
        let isSelfClosing := input.get? (tagClose - 1) = some '/'
        let realTagClose := if isSelfClosing then tagClose - 1 else tagClose
        match pIdx isJsWs (input.drop pos1) with
        | none =>
          let name := jsSlice input pos1 realTagClose
          .cont [.tagOpen name [] isSelfClosing] (tagClose + 1)
            (if isSelfClosing then stack else stack ++ [name])
        | some w =>
          if tagClose - pos1 ≤ w then
            let name := jsSlice input pos1 realTagClose
            .cont [.tagOpen name [] isSelfClosing] (tagClose + 1)
              (if isSelfClosing then stack else stack ++ [name])
          else if w = 0 then
            .done ⟨[], none, stack, some .tagNameWhitespace⟩
          else
            let name := jsSlice input pos1 (pos1 + w)
            .cont [.tagOpen name (jsSlice input (pos1 + w) realTagClose) isSelfClosing]
              (tagClose + 1) (if isSelfClosing then stack else stack ++ [name])

/-- The `while` loop of `_parseChunk`, from cursor `pos`: text handling
(lines 211–232, falling through into the tag dispatch of the same
iteration) followed by `handleTag`. -/
def parseLoopF : Nat → List Char → Nat → List (List Char) → Option RunRes
  | 0, _, _, _ => none
  | fuel+1, input, pos, stack =>
    if pos < input.length then
      if input.get? pos = some '<' then
        match handleTag input pos stack with
        | .done r => some r
        | .cont evs next stack1 =>
          (parseLoopF fuel input next stack1).map
            (fun r => { r with events := evs ++ r.events })
      else
        match jsIndexOfFrom input ['<'] pos with
        | none => some ⟨[], some (.text, input.drop pos), stack, none⟩
        | some nextTag =>
          match handleTag input nextTag stack with
          | .done r =>
            some { r with events := .text (jsSlice input pos nextTag) :: r.events }
          | .cont evs next stack1 =>
            (parseLoopF fuel input next stack1).map
              (fun r =>
                { r with events := .text (jsSlice input pos nextTag) :: (evs ++ r.events) })
    else some ⟨[], none, stack, none⟩

/-- The `_parseChunk` loop restarted at cursor `pos` with
always-sufficient fuel. -/
def runFrom (input : List Char) (pos : Nat) (stack : List (List Char)) : RunRes :=
  (parseLoopF (input.length + 1 - pos) input pos stack).getD ⟨[], none, stack, none⟩

/-- A whole `_parseChunk` body on `input` (after the `_unwait`
prepending) with the given tag stack. -/
def parseChunkRun (input : List Char) (stack : List (List Char)) : RunRes :=
  runFrom input 0 stack

/-- Mutable state of a `Saxophone` instance between calls: the waiting
slot (`_waiting`) and the open-tag stack (`_tagStack`, top at the end). -/
structure SaxState where
  waiting : Option (NodeKind × List Char)
  stack : List (List Char)
deriving DecidableEq, Repr

/-- A freshly constructed parser. -/
def initState : SaxState := ⟨none, []⟩

/-- `_parseChunk` as called from `_write` on a decoded string chunk:
prepend and clear any waiting data, run the loop from cursor 0. -/
def parseChunk (s : SaxState) (chunk : List Char) :
    List Event × SaxState × Option SaxErr :=
  let data := match s.waiting with | none => [] | some w => w.2
  let r := parseChunkRun (data ++ chunk) s.stack
  (r.events, ⟨r.waiting, r.stack⟩, r.err)

/-- `_final` of `lib/Saxophone.js`: parse the chunk flushed from the
string decoder (empty for string input), then inspect the state.  The
source's `switch` reads `this._waiting.tag`, but `_wait` stores the
field under the key `token`; the switch therefore matches no case and
always falls through to its default, so a non-null waiting slot is
silently ignored.  Afterwards a non-empty tag stack produces the
"Unclosed tags" error; otherwise the callback succeeds and the stream
emits its terminal finish event (modelled by `none`). -/
def saxFinal (s : SaxState) : List Event × Option SaxErr :=
  let (evs, s1, err) := parseChunk s []
  match err with
  | some e => (evs, some e)
  | none =>
    if s1.stack = [] then (evs, none) else (evs, some (.unclosedTags s1.stack))

/-- Feed a list of chunks in order, stopping at the first error (after a
fatal error the stream emits `error` and becomes inert, §3 invariant 5). -/
def feedAll : SaxState → List (List Char) → List Event × SaxState × Option SaxErr
  | s, [] => ([], s, none)
  | s, c :: cs =>
    let (evs, s1, err) := parseChunk s c
    match err with
    | some e => (evs, s1, some e)
    | none =>
      let (evs2, s2, err2) := feedAll s1 cs
      (evs ++ evs2, s2, err2)

/-- Observable outcome of writing the given chunks into a fresh parser
and ending the stream: all events in order, then either the terminal end
signal (`none`) or the single fatal error. -/
def runAll (chunks : List (List Char)) : List Event × Option SaxErr :=
  let (evs, s, err) := feedAll initState chunks
  match err with
  | some e => (evs, some e)
  | none =>
    let (evs2, err2) := saxFinal s
    (evs ++ evs2, err2)

/-- `parse(input)` — the whole input as a single chunk, then end. -/
def saxParse (input : List Char) : List Event × Option SaxErr := runAll [input]

/-- Replay of the open-tag stack discipline over an event list: a
non-self-closing `tagOpen` pushes, a `tagClose` requires its name on top
of the stack and pops it, everything else leaves the stack unchanged. -/
def evolve : List (List Char) → List Event → Option (List (List Char))
  | st, [] => some st
  | st, e :: es =>
    match e with
    | .tagOpen n _ false => evolve (st ++ [n]) es
    | .tagOpen _ _ true => evolve st es
    | .tagClose n =>
      match st.getLast? with
      | some p => if p = n then evolve st.dropLast es else none
      | none => none
    | _ => evolve st es

/-- Shape invariant of the waiting slots that `_parseChunk` can actually
store: each buffered fragment starts with its opening delimiter and
contains no occurrence of its terminator past that delimiter. -/
def goodWait : NodeKind × List Char → Bool
  | (.text, d) => ¬ d.isEmpty && ¬ d.contains '<'
  | (.markupDeclaration, d) => d = ['<', '!']
  | (.cdata, d) =>
    d.take 3 = ['<', '!', '['] &&
      (subIdx ((d.drop 3).take 6) cdataLit).isSome &&
      (subIdx (String.toList "]]>") ((d.drop 3).drop 6)).isNone
  | (.comment, d) =>
    d.take 4 = ['<', '!', '-', '-'] &&
      (subIdx (String.toList "--") (d.drop 4)).isNone
  | (.processingInstruction, d) =>
    d.take 2 = ['<', '?'] &&
      (subIdx (String.toList "?>") (d.drop 2)).isNone
  | (.tagOpen, d) =>
    d.take 1 = ['<'] && ¬ (d.drop 1).contains '>' &&
      (d.drop 1).head? ≠ some '!' && (d.drop 1).head? ≠ some '?'
  | (.tagClose, _) => false

/-- Discriminator for the `Unclosed tag` error used to state the stack
discipline. -/
def isUnclosedTagErr : Option SaxErr → Bool
  | some (SaxErr.unclosedTag _) => true
  | _ => false

/-- A tokenizer state whose waiting slot (if any) satisfies `goodWait`;
all states reachable from `initState` are of this shape. -/
def goodState (s : SaxState) : Bool :=
  match s.waiting with
  | none => true
  | some w => goodWait w

/-! ### Generic list and character lemmas -/

theorem char_toNat_inj {c d : Char} (h : c.toNat = d.toNat) : c = d := by
  have h2 := Char.ofNat_toNat c
  rw [h] at h2
  rw [← h2, Char.ofNat_toNat]

theorem char_ne_of_toNat_ne {c d : Char} (h : c.toNat ≠ d.toNat) : c ≠ d :=
  fun he => h (by rw [he])

theorem subIdx_single_none (a : Char) (l : List Char) (h : a ∉ l) : subIdx [a] l = none := by
  induction l with
  | nil => rfl
  | cons c t ih =>
    simp only [List.mem_cons, not_or] at h
    simp only [subIdx, List.isPrefixOf, Bool.and_true, List.isPrefixOf_nil_left]
    rw [if_neg, ih h.2]
    · rfl
    · simp only [beq_iff_eq, Bool.and_eq_true, decide_eq_true_eq]
      exact fun hc => h.1 hc

theorem subIdx_single_app (a : Char) (J r : List Char) (h : a ∉ J) :
    subIdx [a] (J ++ a :: r) = some J.length := by
  induction J with
  | nil => simp [subIdx, List.isPrefixOf]
  | cons c t ih =>
    simp only [List.mem_cons, not_or] at h
    simp only [List.cons_append, subIdx]
    rw [if_neg]
    · show Option.map (fun x => x + 1) (subIdx [a] (t ++ a :: r)) = _
      rw [ih h.2]
      rfl
    · simp only [List.isPrefixOf, Bool.and_true, List.isPrefixOf_nil_left, beq_iff_eq,
        Bool.and_eq_true, decide_eq_true_eq]
      exact fun hc => h.1 hc

theorem jsIndexOfFrom_ge {hay pat : List Char} {s i : Nat}
    (h : jsIndexOfFrom hay pat s = some i) : s ≤ i := by
  simp only [jsIndexOfFrom, Option.map_eq_some'] at h
  obtain ⟨j, _, rfl⟩ := h
  omega

theorem subIdx_lt {pat l : List Char} {i : Nat} (hp : pat ≠ [])
    (h : subIdx pat l = some i) : i < l.length := by
  induction l generalizing i with
  | nil =>
    simp only [subIdx, List.isEmpty_iff] at h
    rw [if_neg hp] at h
    exact absurd h (by simp)
  | cons c t ih =>
    simp only [subIdx] at h
    split at h
    · cases h
      simp
    · simp only [Option.map_eq_some'] at h
      obtain ⟨j, hj, rfl⟩ := h
      have := ih hj
      simp
      omega

theorem subIdx_some_ne_nil {pat l : List Char} {i : Nat}
    (hp : pat ≠ []) (h : subIdx pat l = some i) : l ≠ [] := by
  intro hl
  subst hl
  simp only [subIdx, List.isEmpty_iff] at h
  rw [if_neg hp] at h
  exact absurd h (by simp)

theorem jsIndexOfFrom_lt {hay pat : List Char} {s i : Nat} (hp : pat ≠ [])
    (h : jsIndexOfFrom hay pat s = some i) : i < hay.length := by
  simp only [jsIndexOfFrom, Option.map_eq_some'] at h
  obtain ⟨j, hj, rfl⟩ := h
  have h1 := subIdx_lt hp hj
  have h2 : (hay.drop s).length = hay.length - s := by simp
  have h3 : s < hay.length := by
    have := subIdx_some_ne_nil hp hj
    by_contra hs
    push_neg at hs
    exact this (List.drop_eq_nil_of_le hs)
  omega

theorem drop_cons_of_get? {l : List Char} {n : Nat} {c : Char}
    (h : l.get? n = some c) : l.drop n = c :: l.drop (n+1) := by
  induction l generalizing n with
  | nil => simp at h
  | cons d t ih =>
    cases n with
    | zero => simp_all
    | succ m =>
      simp only [List.get?] at h
      simpa using ih h

/-! ### Fuel lemmas for the `parseEntities` loop -/

theorem entsLoop_congr (input : List Char) :
    ∀ f1 f2 pos, input.length - pos < f1 → input.length - pos < f2 →
      parseEntitiesLoop f1 input pos = parseEntitiesLoop f2 input pos := by
  intro f1
  induction f1 with
  | zero => omega
  | succ f1 ih =>
    intro f2 pos h1 h2
    match f2, h2 with
    | f2+1, h2 =>
      cases hamp : jsIndexOfFrom input ['&'] pos with
      | none => simp only [parseEntitiesLoop, hamp]
      | some next =>
        cases hsemi : jsIndexOfFrom input [';'] next with
        | none => simp only [parseEntitiesLoop, hamp, hsemi]
        | some semi =>
          have hnext : pos ≤ next := jsIndexOfFrom_ge hamp
          have hlt : semi < input.length := jsIndexOfFrom_lt (by simp) hsemi
          have hsn : next ≤ semi := jsIndexOfFrom_ge hsemi
          simp only [parseEntitiesLoop, hamp, hsemi]
          rw [ih f2 (semi+1) (by omega) (by omega)]

theorem entsLoop_isSome (input : List Char) :
    ∀ fuel pos, input.length - pos < fuel →
      (parseEntitiesLoop fuel input pos).isSome := by
  intro fuel
  induction fuel with
  | zero => omega
  | succ f ih =>
    intro pos h
    cases hamp : jsIndexOfFrom input ['&'] pos with
    | none => simp [parseEntitiesLoop, hamp]
    | some next =>
      cases hsemi : jsIndexOfFrom input [';'] next with
      | none => simp [parseEntitiesLoop, hamp, hsemi]
      | some semi =>
        have hnext : pos ≤ next := jsIndexOfFrom_ge hamp
        have hlt : semi < input.length := jsIndexOfFrom_lt (by simp) hsemi
        have hsn : next ≤ semi := jsIndexOfFrom_ge hsemi
        simp only [parseEntitiesLoop, hamp, hsemi]
        obtain ⟨r, hr⟩ := Option.isSome_iff_exists.mp (ih (semi+1) (by omega))
        rw [hr]
        rfl

theorem parseEntitiesFrom_step (input : List Char) (pos : Nat) :
    parseEntitiesFrom input pos =
      match jsIndexOfFrom input ['&'] pos with
      | none => input.drop pos
      | some next =>
        match jsIndexOfFrom input [';'] next with
        | none => jsSlice input pos next ++ input.drop pos
        | some semi =>
          jsSlice input pos next ++ expandEntity (jsSlice input next semi) ++
            parseEntitiesFrom input (semi + 1) := by
  by_cases hp : pos ≤ input.length
  · unfold parseEntitiesFrom
    conv_lhs => rw [show input.length + 1 - pos = (input.length - pos) + 1 by omega]
    cases hamp : jsIndexOfFrom input ['&'] pos with
    | none => simp only [parseEntitiesLoop, hamp, Option.getD_some]
    | some next =>
      cases hsemi : jsIndexOfFrom input [';'] next with
      | none => simp only [parseEntitiesLoop, hamp, hsemi, Option.getD_some]
      | some semi =>
        have hnext : pos ≤ next := jsIndexOfFrom_ge hamp
        have hlt : semi < input.length := jsIndexOfFrom_lt (by simp) hsemi
        have hsn : next ≤ semi := jsIndexOfFrom_ge hsemi
        simp only [parseEntitiesLoop, hamp, hsemi]
        rw [entsLoop_congr input (input.length - pos) (input.length + 1 - (semi+1))
          (semi+1) (by omega) (by omega)]
        have hs := entsLoop_isSome input (input.length + 1 - (semi+1)) (semi+1) (by omega)
        obtain ⟨r, hr⟩ := Option.isSome_iff_exists.mp hs
        rw [hr]
        rfl
  · push_neg at hp
    have h1 : input.drop pos = [] := List.drop_eq_nil_of_le (by omega)
    have h2 : jsIndexOfFrom input ['&'] pos = none := by
      simp only [jsIndexOfFrom, h1]
      rfl
    rw [h2]
    unfold parseEntitiesFrom
    rw [show input.length + 1 - pos = 0 by omega]
    simp [parseEntitiesLoop, h1]

/-! ### Character class range lemmas -/

theorem jsWs_range {c : Char} (h : isJsWs c = true) :
    c.toNat = 32 ∨ c.toNat = 9 ∨ c.toNat = 10 ∨ c.toNat = 13 ∨ c.toNat = 11 ∨
    c.toNat = 12 ∨ c.toNat = 160 ∨ c.toNat = 5760 ∨
    (8192 ≤ c.toNat ∧ c.toNat ≤ 8202) ∨ c.toNat = 8232 ∨ c.toNat = 8233 ∨
    c.toNat = 8239 ∨ c.toNat = 8287 ∨ c.toNat = 12288 ∨ c.toNat = 65279 := by
  simp only [isJsWs, Bool.or_eq_true, beq_iff_eq, Bool.and_eq_true, decide_eq_true_eq] at h
  rcases h with ((((((((((((((h|h)|h)|h)|h)|h)|h)|h)|h)|h)|h)|h)|h)|h)|h) <;>
    first
      | (subst h; decide)
      | (exact Or.inr (Or.inr (Or.inr (Or.inr (Or.inr (Or.inr (Or.inr (Or.inr
          (Or.inl ⟨h.1, h.2⟩)))))))))

theorem jsWs_false_of_range {c : Char} (h1 : 33 ≤ c.toNat) (h2 : c.toNat ≤ 125) :
    isJsWs c = false := by
  cases hb : isJsWs c
  · rfl
  · have := jsWs_range hb
    omega

theorem digit10_range {c : Char} (h : (digitVal 10 c).isSome = true) :
    48 ≤ c.toNat ∧ c.toNat ≤ 57 := by
  by_cases h1 : '0' ≤ c ∧ c ≤ '9'
  · exact ⟨h1.1, h1.2⟩
  · exfalso
    unfold digitVal at h
    rw [if_neg h1] at h
    by_cases h2 : 'a' ≤ c ∧ c ≤ 'z'
    · rw [if_pos h2] at h
      have a1 : 97 ≤ c.toNat := h2.1
      split_ifs at h with hv
      · omega
      · simp at h
    · rw [if_neg h2] at h
      by_cases h3 : 'A' ≤ c ∧ c ≤ 'Z'
      · rw [if_pos h3] at h
        have a1 : 65 ≤ c.toNat := h3.1
        split_ifs at h with hv
        · omega
        · simp at h
      · rw [if_neg h3] at h
        simp at h

theorem digit16_range {c : Char} (h : (digitVal 16 c).isSome = true) :
    (48 ≤ c.toNat ∧ c.toNat ≤ 57) ∨ (97 ≤ c.toNat ∧ c.toNat ≤ 102) ∨
      (65 ≤ c.toNat ∧ c.toNat ≤ 70) := by
  by_cases h1 : '0' ≤ c ∧ c ≤ '9'
  · exact Or.inl ⟨h1.1, h1.2⟩
  · unfold digitVal at h
    rw [if_neg h1] at h
    by_cases h2 : 'a' ≤ c ∧ c ≤ 'z'
    · rw [if_pos h2] at h
      have a1 : 97 ≤ c.toNat := h2.1
      split_ifs at h with hv
      · exact Or.inr (Or.inl ⟨a1, by omega⟩)
      · simp at h
    · rw [if_neg h2] at h
      by_cases h3 : 'A' ≤ c ∧ c ≤ 'Z'
      · rw [if_pos h3] at h
        have a1 : 65 ≤ c.toNat := h3.1
        split_ifs at h with hv
        · exact Or.inr (Or.inr ⟨a1, by omega⟩)
        · simp at h
      · rw [if_neg h3] at h
        simp at h

theorem takeWhile_all {p : Char → Bool} :
    ∀ {l : List Char}, (∀ c ∈ l, p c = true) → l.takeWhile p = l := by
  intro l
  induction l with
  | nil => intro _; rfl
  | cons c t ih =>
    intro h
    rw [List.takeWhile_cons, if_pos (h c (by simp))]
    rw [ih (fun d hd => h d (by simp [hd]))]

theorem digit_facts {radix : Nat} (hr : radix = 10 ∨ radix = 16) {c : Char}
    (h : (digitVal radix c).isSome = true) :
    48 ≤ c.toNat ∧ c.toNat ≤ 102 ∧ c.toNat ≠ 59 ∧ c.toNat ≠ 88 ∧ c.toNat ≠ 120 ∧
      c.toNat ≠ 58 ∧ c.toNat ≠ 60 ∧ c.toNat ≠ 62 := by
  rcases hr with rfl | rfl
  · have := digit10_range h
    omega
  · have := digit16_range h
    omega

theorem jsParseInt_digits {radix : Nat} (hr : radix = 10 ∨ radix = 16) {ds : List Char}
    (hne : ds ≠ []) (hd : ∀ c ∈ ds, (digitVal radix c).isSome = true) :
    jsParseInt ds radix = some ((digitsVal radix ds : Int)) := by
  obtain ⟨c0, t, rfl⟩ := List.exists_cons_of_ne_nil hne
  have f0 := digit_facts hr (hd c0 (by simp))
  have hdrop : (c0 :: t).dropWhile isJsWs = c0 :: t := by
    rw [List.dropWhile_cons, if_neg]
    rw [jsWs_false_of_range (by omega) (by omega)]
    simp
  have hmc : ¬ c0 = '-' := char_ne_of_toNat_ne (by simp; omega)
  have hpc : ¬ c0 = '+' := char_ne_of_toNat_ne (by simp; omega)
  have hx0 : ¬ (radix = 16 ∧ c0 = '0' ∧ (t.get? 0 = some 'x' ∨ t.get? 0 = some 'X')) := by
    rintro ⟨-, -, hx | hx⟩ <;>
    · cases t with
      | nil => simp at hx
      | cons c1 t' =>
        have f1 := digit_facts hr (hd c1 (by simp))
        simp only [List.get?_cons_zero, Option.some.injEq] at hx
        have h120 := congrArg Char.toNat hx
        simp at h120
        omega
  have htw : (c0 :: t).takeWhile (fun c => (digitVal radix c).isSome) = c0 :: t :=
    takeWhile_all (fun c hc => hd c hc)
  have e1 : (c0 = '-') = False := eq_false hmc
  have e2 : (c0 = '-' ∨ c0 = '+') = False := by
    simp only [eq_iff_iff, iff_false]
    rintro (h | h)
    exacts [hmc h, hpc h]
  simp only [jsParseInt, hdrop, List.head?_cons, Option.some.injEq, List.get?_cons_succ,
    e2, if_false]
  simp only [e1, if_false]
  have e3 : (radix = 16 ∧ c0 = '0' ∧ (t.get? 0 = some 'x' ∨ t.get? 0 = some 'X')) = False :=
    eq_false hx0
  simp only [e3, if_false, htw]
  rw [if_neg (by simp)]
  simp

theorem fromCharCode_coe {n : Nat} (h : n < 65536) :
    fromCharCode (n : Int) = Char.ofNat n := by
  unfold fromCharCode
  congr 1
  have h2 : ((n : Int) % 65536) = (n : Int) := by
    apply Int.emod_eq_of_lt
    · positivity
    · exact_mod_cast h
  rw [h2]
  simp

theorem parseEntities_single (mid : List Char) (h0 : mid.head? = some '&')
    (hs : ';' ∉ mid) :
    parseEntities (mid ++ [';']) = expandEntity mid := by
  obtain ⟨m, rfl⟩ : ∃ m, mid = '&' :: m := by
    cases mid with
    | nil => simp at h0
    | cons c t =>
      simp only [List.head?_cons, Option.some.injEq] at h0
      exact ⟨t, by rw [h0]⟩
  rw [parseEntities, parseEntitiesFrom_step]
  have hamp : jsIndexOfFrom (('&' :: m) ++ [';']) ['&'] 0 = some 0 := by
    simp only [jsIndexOfFrom, List.drop_zero, List.cons_append, subIdx]
    rw [if_pos]
    · rfl
    · simp [List.isPrefixOf]
  have hsemi : jsIndexOfFrom (('&' :: m) ++ [';']) [';'] 0 = some ('&' :: m).length := by
    simp only [jsIndexOfFrom, List.drop_zero]
    rw [subIdx_single_app ';' ('&' :: m) [] hs]
    simp
  simp only [hamp, hsemi]
  have hslice0 : jsSlice (('&' :: m) ++ [';']) 0 0 = [] := by
    simp [jsSlice]
  have hslice : jsSlice (('&' :: m) ++ [';']) 0 ('&' :: m).length = '&' :: m := by
    simp only [jsSlice, List.drop_zero, Nat.sub_zero]
    exact List.take_left _ _
  rw [hslice0, hslice]
  have hend : parseEntitiesFrom (('&' :: m) ++ [';']) (('&' :: m).length + 1) = [] := by
    rw [parseEntitiesFrom_step]
    have hdrop : (('&' :: m) ++ [';']).drop (('&' :: m).length + 1) = [] := by
      apply List.drop_eq_nil_of_le
      simp
    rw [show jsIndexOfFrom (('&' :: m) ++ [';']) ['&'] (('&' :: m).length + 1) = none by
      simp only [jsIndexOfFrom, hdrop]; rfl]
    exact hdrop
  rw [hend]
  simp

theorem expandEntity_numeric (ds : List Char) :
    expandEntity ('&' :: '#' :: ds) =
      if ds.get? 0 = some 'x' then
        match jsParseInt (ds.drop 1) 16 with
        | none => ('&' :: '#' :: ds) ++ [';']
        | some v => [fromCharCode v]
      else
        match jsParseInt ds 10 with
        | none => ('&' :: '#' :: ds) ++ [';']
        | some v => [fromCharCode v] := by
  unfold expandEntity
  rw [if_neg (by rw [show String.toList "&quot" = ['&', 'q', 'u', 'o', 't'] from rfl]; simp)]
  rw [if_neg (by rw [show String.toList "&amp" = ['&', 'a', 'm', 'p'] from rfl]; simp)]
  rw [if_neg (by rw [show String.toList "&apos" = ['&', 'a', 'p', 'o', 's'] from rfl]; simp)]
  rw [if_neg (by rw [show String.toList "&lt" = ['&', 'l', 't'] from rfl]; simp)]
  rw [if_neg (by rw [show String.toList "&gt" = ['&', 'g', 't'] from rfl]; simp)]
  rw [if_neg (by simp)]
  rfl

/-! ### Claim theorems for the entity expander (C7, C8) -/

/-- C7: the claim states that on an input containing a `&` with no
following `;`, everything from that `&` to the end is copied as-is after
the expansion of the preceding text, with no character duplicated.  The
code instead re-pushes the text between the previous cursor position and
the `&`: on `"a&amp"` it returns `"aa&amp"`, duplicating the `a`. -/
theorem c7_unterminated_reference_duplication :
    parseEntities (String.toList "a&amp") = String.toList "aa&amp" ∧
      parseEntities (String.toList "a&amp") ≠ String.toList "a&amp" := by
  constructor <;> decide

/-- C8 (counterexample): `&#1x;` has a payload that is not entirely
digits yet is not left as written — JS `parseInt` accepts the leading
digit prefix, so the code emits `U+0001`; and `&#x10041;` (a valid code
point above `U+FFFF`) is not replaced by U+10041 but by the truncated
UTF-16 code unit U+0041. -/
theorem c8_numeric_refs_counterexample :
    (parseEntities (String.toList "&#1x;") = ['\x01'] ∧
      parseEntities (String.toList "&#1x;") ≠ String.toList "&#1x;") ∧
    (parseEntities (String.toList "&#x10041;") = ['A'] ∧
      parseEntities (String.toList "&#x10041;") ≠ [Char.ofNat 0x10041]) := by
  refine ⟨⟨?_, ?_⟩, ?_, ?_⟩ <;> decide

/-- C8 (amended): a numeric reference `&#N;` (resp. `&#xH;`) whose
payload is parsed by JS `parseInt` — which accepts a maximal leading
digit prefix — is replaced by the UTF-16 code unit at the parsed value
reduced mod 2^16; for values that are valid scalar values below 2^16
this is exactly the code point U+N (resp. U+H).  A payload on which
`parseInt` yields NaN leaves the reference exactly as written. -/
theorem c8_numeric_refs_amended :
    (∀ ds : List Char, ds ≠ [] → (∀ c ∈ ds, (digitVal 10 c).isSome = true) →
      (digitsVal 10 ds < 55296 ∨ (57343 < digitsVal 10 ds ∧ digitsVal 10 ds < 65536)) →
      parseEntities ('&' :: '#' :: ds ++ [';']) = [Char.ofNat (digitsVal 10 ds)]) ∧
    (∀ hs : List Char, hs ≠ [] → (∀ c ∈ hs, (digitVal 16 c).isSome = true) →
      (digitsVal 16 hs < 55296 ∨ (57343 < digitsVal 16 hs ∧ digitsVal 16 hs < 65536)) →
      parseEntities ('&' :: '#' :: 'x' :: hs ++ [';']) = [Char.ofNat (digitsVal 16 hs)]) ∧
    (∀ p : List Char, ';' ∉ p → p.get? 0 ≠ some 'x' → jsParseInt p 10 = none →
      parseEntities ('&' :: '#' :: p ++ [';']) = '&' :: '#' :: p ++ [';']) ∧
    (∀ p : List Char, ';' ∉ p → jsParseInt p 16 = none →
      parseEntities ('&' :: '#' :: 'x' :: p ++ [';']) = '&' :: '#' :: 'x' :: p ++ [';']) := by
  refine ⟨?_, ?_, ?_, ?_⟩
  · intro ds hne hd hval
    have hsemi : ';' ∉ '&' :: '#' :: ds := by
      simp only [List.mem_cons, not_or]
      refine ⟨by decide, by decide, ?_⟩
      intro hmem
      have := (digit_facts (Or.inl rfl) (hd _ hmem)).2.2.1
      exact this rfl
    have h1 : parseEntities (('&' :: '#' :: ds) ++ [';']) = expandEntity ('&' :: '#' :: ds) :=
      parseEntities_single _ (by rfl) hsemi
    rw [show '&' :: '#' :: ds ++ [';'] = ('&' :: '#' :: ds) ++ [';'] from rfl, h1,
      expandEntity_numeric]
    obtain ⟨d, ds', rfl⟩ := List.exists_cons_of_ne_nil hne
    have hdx : ¬ ((d :: ds').get? 0 = some 'x') := by
      simp only [List.get?_cons_zero, Option.some.injEq]
      have := digit10_range (hd d (by simp))
      exact char_ne_of_toNat_ne (by simp; omega)
    rw [if_neg hdx, jsParseInt_digits (Or.inl rfl) hne hd]
    have hlt : digitsVal 10 (d :: ds') < 65536 := by omega
    exact congrArg (fun c => [c]) (fromCharCode_coe hlt)
  · intro hs hne hd hval
    have hsemi : ';' ∉ '&' :: '#' :: 'x' :: hs := by
      simp only [List.mem_cons, not_or]
      refine ⟨by decide, by decide, by decide, ?_⟩
      intro hmem
      have := (digit_facts (Or.inr rfl) (hd _ hmem)).2.2.1
      exact this rfl
    have h1 : parseEntities (('&' :: '#' :: 'x' :: hs) ++ [';']) =
        expandEntity ('&' :: '#' :: 'x' :: hs) :=
      parseEntities_single _ (by rfl) hsemi
    rw [show '&' :: '#' :: 'x' :: hs ++ [';'] = ('&' :: '#' :: 'x' :: hs) ++ [';'] from rfl,
      h1, expandEntity_numeric]
    rw [if_pos (by simp)]
    rw [show ('x' :: hs).drop 1 = hs from rfl, jsParseInt_digits (Or.inr rfl) hne hd]
    have hlt : digitsVal 16 hs < 65536 := by omega
    exact congrArg (fun c => [c]) (fromCharCode_coe hlt)
  · intro p hsemi hx hnan
    have hsemi2 : ';' ∉ '&' :: '#' :: p := by
      simp only [List.mem_cons, not_or]
      exact ⟨by decide, by decide, hsemi⟩
    have h1 : parseEntities (('&' :: '#' :: p) ++ [';']) = expandEntity ('&' :: '#' :: p) :=
      parseEntities_single _ (by rfl) hsemi2
    rw [show '&' :: '#' :: p ++ [';'] = ('&' :: '#' :: p) ++ [';'] from rfl, h1,
      expandEntity_numeric, if_neg hx, hnan]
  · intro p hsemi hnan
    have hsemi2 : ';' ∉ '&' :: '#' :: 'x' :: p := by
      simp only [List.mem_cons, not_or]
      exact ⟨by decide, by decide, by decide, hsemi⟩
    have h1 : parseEntities (('&' :: '#' :: 'x' :: p) ++ [';']) =
        expandEntity ('&' :: '#' :: 'x' :: p) :=
      parseEntities_single _ (by rfl) hsemi2
    rw [show '&' :: '#' :: 'x' :: p ++ [';'] = ('&' :: '#' :: 'x' :: p) ++ [';'] from rfl,
      h1, expandEntity_numeric, if_pos (by simp)]
    rw [show ('x' :: p).drop 1 = p from rfl, hnan]

/-- C8 (witness): the amended theorem applied at `&#65;`, `&#x41;`,
`&#notanumber;` and `&#xnotanumber;`. -/
theorem c8_numeric_refs_amended_witness :
    parseEntities (String.toList "&#65;") = ['A'] ∧
      parseEntities (String.toList "&#x41;") = ['A'] ∧
      parseEntities (String.toList "&#notanumber;") = String.toList "&#notanumber;" ∧
      parseEntities (String.toList "&#xnotanumber;") = String.toList "&#xnotanumber;" := by
  refine ⟨?_, ?_, ?_, ?_⟩
  · have h := c8_numeric_refs_amended.1 ['6', '5'] (by decide) (by decide) (by decide)
    exact h
  · have h := c8_numeric_refs_amended.2.1 ['4', '1'] (by decide) (by decide) (by decide)
    exact h
  · have h := c8_numeric_refs_amended.2.2.1 (String.toList "notanumber") (by decide)
      (by decide) (by decide)
    exact h
  · have h := c8_numeric_refs_amended.2.2.2 (String.toList "notanumber") (by decide)
      (by decide)
    exact h

/-! ### List helpers for the attribute parsers -/

theorem get?_some_lt {l : List Char} {n : Nat} {c : Char}
    (h : l.get? n = some c) : n < l.length := by
  obtain ⟨h1, -⟩ := List.get?_eq_some.mp h
  exact h1

theorem get?_drop' (l : List Char) (m n : Nat) : (l.drop m).get? n = l.get? (m + n) := by
  simp [List.get?_drop]

theorem get?_append_right' {l1 : List Char} (l2 : List Char) {n : Nat}
    (h : l1.length ≤ n) : (l1 ++ l2).get? n = l2.get? (n - l1.length) := by
  simp only [List.get?_eq_getElem?]
  exact List.getElem?_append_right h

theorem length_dropWhile_le (p : Char → Bool) :
    ∀ l : List Char, (l.dropWhile p).length ≤ l.length := by
  intro l
  induction l with
  | nil => simp
  | cons c t ih =>
    rw [List.dropWhile_cons]
    split_ifs
    · simp only [List.length_cons]
      omega
    · simp

theorem take_takeWhile (p : Char → Bool) :
    ∀ l : List Char, l.take (l.takeWhile p).length = l.takeWhile p := by
  intro l
  induction l with
  | nil => rfl
  | cons c t ih =>
    rw [List.takeWhile_cons]
    split_ifs
    · simp only [List.length_cons, List.take_succ_cons, ih]
    · rfl

theorem dropWhile_eq_drop_tw (p : Char → Bool) :
    ∀ l : List Char, l.dropWhile p = l.drop (l.takeWhile p).length := by
  intro l
  induction l with
  | nil => rfl
  | cons c t ih =>
    rw [List.takeWhile_cons, List.dropWhile_cons]
    split_ifs
    · simp only [List.length_cons, List.drop_succ_cons, ih]
    · rfl

/-! ### Fuel lemmas for the `parseAttrs` loop -/

theorem attrsLoop_congr (input : List Char) :
    ∀ f1 f2 pos attrs, input.length - pos < f1 → input.length - pos < f2 →
      parseAttrsLoop f1 input pos attrs = parseAttrsLoop f2 input pos attrs := by
  intro f1
  induction f1 with
  | zero => omega
  | succ f1 ih =>
    intro f2 pos attrs h1 h2
    match f2, h2 with
    | f2+1, h2 =>
      cases hget : input.get? pos with
      | none => simp only [parseAttrsLoop, hget]
      | some c =>
        have hpos : pos < input.length := get?_some_lt hget
        simp only [parseAttrsLoop, hget]
        split_ifs with hws
        · exact ih f2 (pos+1) attrs (by omega) (by omega)
        · cases hscan : scanName (input.drop pos) with
          | error m => rfl
          | ok k =>
            dsimp only
            split_ifs with hend
            · rfl
            · cases hq : input.get? (pos + k + 1) with
              | none => rfl
              | some q =>
                dsimp only
                split_ifs with hqq
                · rfl
                · cases he : jsIndexOfFrom input [q] (pos + k + 2) with
                  | none => rfl
                  | some endQuote =>
                    dsimp only
                    have h3 : pos + k + 2 ≤ endQuote := jsIndexOfFrom_ge he
                    have h4 : endQuote < input.length := jsIndexOfFrom_lt (by simp) he
                    exact ih f2 (endQuote+1) _ (by omega) (by omega)

theorem attrsLoop_isSome (input : List Char) :
    ∀ fuel pos attrs, input.length - pos < fuel →
      (parseAttrsLoop fuel input pos attrs).isSome := by
  intro fuel
  induction fuel with
  | zero => omega
  | succ f ih =>
    intro pos attrs h
    cases hget : input.get? pos with
    | none => simp only [parseAttrsLoop, hget, Option.isSome_some]
    | some c =>
      have hpos : pos < input.length := get?_some_lt hget
      simp only [parseAttrsLoop, hget]
      split_ifs with hws
      · exact ih (pos+1) attrs (by omega)
      · cases hscan : scanName (input.drop pos) with
        | error m => rfl
        | ok k =>
          dsimp only
          split_ifs with hend
          · rfl
          · cases hq : input.get? (pos + k + 1) with
            | none => rfl
            | some q =>
              dsimp only
              split_ifs with hqq
              · rfl
              · cases he : jsIndexOfFrom input [q] (pos + k + 2) with
                | none => rfl
                | some endQuote =>
                  dsimp only
                  have h3 : pos + k + 2 ≤ endQuote := jsIndexOfFrom_ge he
                  have h4 : endQuote < input.length := jsIndexOfFrom_lt (by simp) he
                  exact ih (endQuote+1) _ (by omega)

theorem parseAttrsFrom_step (input : List Char) (pos : Nat) (attrs : AttrList) :
    parseAttrsFrom input pos attrs =
      match input.get? pos with
      | none => .ok attrs
      | some c =>
        if isWhitespace c then parseAttrsFrom input (pos+1) attrs
        else
          match scanName (input.drop pos) with
          | .error m => .error m
          | .ok k =>
            if input.length ≤ pos + k then .error "Expected a value for the attribute"
            else
              match input.get? (pos + k + 1) with
              | none => .error "Attribute values should be quoted"
              | some q =>
                if q ≠ dquote ∧ q ≠ squote then .error "Attribute values should be quoted"
                else
                  match jsIndexOfFrom input [q] (pos + k + 2) with
                  | none => .error "Unclosed attribute value"
                  | some endQuote =>
                    parseAttrsFrom input (endQuote + 1)
                      (jsInsert attrs (jsSlice input pos (pos + k))
                        (jsSlice input (pos + k + 2) endQuote)) := by
  by_cases hp : pos ≤ input.length
  · unfold parseAttrsFrom
    conv_lhs => rw [show input.length + 1 - pos = (input.length - pos) + 1 by omega]
    cases hget : input.get? pos with
    | none => simp only [parseAttrsLoop, hget, Option.getD_some]
    | some c =>
      have hpos : pos < input.length := get?_some_lt hget
      simp only [parseAttrsLoop, hget]
      split_ifs with hws
      · rw [show input.length - pos = input.length + 1 - (pos + 1) by omega]
      · cases hscan : scanName (input.drop pos) with
        | error m => rfl
        | ok k =>
          dsimp only
          split_ifs with hend
          · rfl
          · cases hq : input.get? (pos + k + 1) with
            | none => rfl
            | some q =>
              dsimp only
              split_ifs with hqq
              · rfl
              · cases he : jsIndexOfFrom input [q] (pos + k + 2) with
                | none => rfl
                | some endQuote =>
                  dsimp only
                  have h3 : pos + k + 2 ≤ endQuote := jsIndexOfFrom_ge he
                  have h4 : endQuote < input.length := jsIndexOfFrom_lt (by simp) he
                  rw [attrsLoop_congr input (input.length - pos)
                    (input.length + 1 - (endQuote + 1)) (endQuote+1) _ (by omega) (by omega)]
                  obtain ⟨r, hr⟩ := Option.isSome_iff_exists.mp
                    (attrsLoop_isSome input (input.length + 1 - (endQuote + 1)) (endQuote+1) _
                      (by omega))
                  rw [hr]
                  rfl
  · push_neg at hp
    have hget : input.get? pos = none := by
      rw [List.get?_eq_none]
      omega
    rw [hget]
    unfold parseAttrsFrom
    rw [show input.length + 1 - pos = 0 by omega]
    rfl

/-! ### Fuel lemmas for the specification-side attribute loop -/

theorem specLoop_len_facts {l : List Char} {c0 : Char} {t0 : List Char}
    (hdw : l.dropWhile isWhitespace = c0 :: t0) :
    (c0 :: t0).length ≤ l.length ∧ 0 < l.length := by
  have h1 := length_dropWhile_le isWhitespace l
  rw [hdw] at h1
  constructor
  · exact h1
  · simp only [List.length_cons] at h1
    omega

theorem specLoop_congr :
    ∀ f1 f2 (l : List Char) (attrs : AttrList), l.length < f1 → l.length < f2 →
      parseAttrsSpecLoop f1 l attrs = parseAttrsSpecLoop f2 l attrs := by
  intro f1
  induction f1 with
  | zero => omega
  | succ f1 ih =>
    intro f2 l attrs h1 h2
    match f2, h2 with
    | f2+1, h2 =>
      cases hdw : l.dropWhile isWhitespace with
      | nil => simp only [parseAttrsSpecLoop, hdw]
      | cons c0 t0 =>
        obtain ⟨hlen, hpos⟩ := specLoop_len_facts hdw
        simp only [parseAttrsSpecLoop, hdw]
        cases hrest : (c0 :: t0).drop
            ((c0 :: t0).takeWhile (fun c => ¬ c = '=' ∧ ¬ isWhitespace c)).length with
        | nil => rfl
        | cons c rest1 =>
          dsimp only
          have hlen2 : (c :: rest1).length ≤ (c0 :: t0).length := by
            rw [← hrest]
            simp
          split_ifs with hws
          · rfl
          · cases rest1 with
            | nil => rfl
            | cons q rest2 =>
              dsimp only
              split_ifs with hqq
              · rfl
              · cases hj : subIdx [q] rest2 with
                | none => rfl
                | some j =>
                  dsimp only
                  apply ih
                  · have := List.length_drop (j+1) rest2
                    simp only [List.length_cons] at hlen2 hlen
                    omega
                  · have := List.length_drop (j+1) rest2
                    simp only [List.length_cons] at hlen2 hlen
                    omega

theorem specLoop_isSome :
    ∀ fuel (l : List Char) (attrs : AttrList), l.length < fuel →
      (parseAttrsSpecLoop fuel l attrs).isSome := by
  intro fuel
  induction fuel with
  | zero => omega
  | succ f ih =>
    intro l attrs h
    cases hdw : l.dropWhile isWhitespace with
    | nil => simp only [parseAttrsSpecLoop, hdw, Option.isSome_some]
    | cons c0 t0 =>
      obtain ⟨hlen, hpos⟩ := specLoop_len_facts hdw
      simp only [parseAttrsSpecLoop, hdw]
      cases hrest : (c0 :: t0).drop
          ((c0 :: t0).takeWhile (fun c => ¬ c = '=' ∧ ¬ isWhitespace c)).length with
      | nil => rfl
      | cons c rest1 =>
        dsimp only
        have hlen2 : (c :: rest1).length ≤ (c0 :: t0).length := by
          rw [← hrest]
          simp
        split_ifs with hws
        · rfl
        · cases rest1 with
          | nil => rfl
          | cons q rest2 =>
            dsimp only
            split_ifs with hqq
            · rfl
            · cases hj : subIdx [q] rest2 with
              | none => rfl
              | some j =>
                dsimp only
                apply ih
                have := List.length_drop (j+1) rest2
                simp only [List.length_cons] at hlen2 hlen
                omega

theorem parseAttrsSpecRun_step (l : List Char) (attrs : AttrList) :
    parseAttrsSpecRun l attrs =
      match l.dropWhile isWhitespace with
      | [] => .ok attrs
      | c0 :: t0 =>
        match (c0 :: t0).drop
            ((c0 :: t0).takeWhile (fun c => ¬ c = '=' ∧ ¬ isWhitespace c)).length with
        | [] => .error "Expected a value for the attribute"
        | c :: rest1 =>
          if isWhitespace c then .error "Attribute names may not contain whitespace"
          else
            match rest1 with
            | [] => .error "Attribute values should be quoted"
            | q :: rest2 =>
              if q ≠ dquote ∧ q ≠ squote then .error "Attribute values should be quoted"
              else
                match subIdx [q] rest2 with
                | none => .error "Unclosed attribute value"
                | some j =>
                  parseAttrsSpecRun (rest2.drop (j+1))
                    (jsInsert attrs
                      ((c0 :: t0).takeWhile (fun c => ¬ c = '=' ∧ ¬ isWhitespace c))
                      (rest2.take j)) := by
  conv_lhs => rw [show parseAttrsSpecRun l attrs =
    (parseAttrsSpecLoop (l.length + 1) l attrs).getD (.ok attrs) from rfl]
  cases hdw : l.dropWhile isWhitespace with
  | nil => simp only [parseAttrsSpecLoop, hdw, Option.getD_some]
  | cons c0 t0 =>
    obtain ⟨hlen, hpos⟩ := specLoop_len_facts hdw
    simp only [parseAttrsSpecLoop, hdw]
    cases hrest : (c0 :: t0).drop
        ((c0 :: t0).takeWhile (fun c => ¬ c = '=' ∧ ¬ isWhitespace c)).length with
    | nil => rfl
    | cons c rest1 =>
      dsimp only
      have hlen2 : (c :: rest1).length ≤ (c0 :: t0).length := by
        rw [← hrest]
        simp
      split_ifs with hws
      · rfl
      · cases rest1 with
        | nil => rfl
        | cons q rest2 =>
          dsimp only
          split_ifs with hqq
          · rfl
          · cases hj : subIdx [q] rest2 with
            | none => rfl
            | some j =>
              dsimp only
              rw [specLoop_congr l.length ((rest2.drop (j+1)).length + 1)
                (rest2.drop (j+1))
                (jsInsert attrs
                  ((c0 :: t0).takeWhile (fun c => ¬ c = '=' ∧ ¬ isWhitespace c))
                  (rest2.take j))
                (by
                  have := List.length_drop (j+1) rest2
                  simp only [List.length_cons] at hlen2 hlen
                  omega)
                (by omega)]
              obtain ⟨r, hr⟩ := Option.isSome_iff_exists.mp
                (specLoop_isSome ((rest2.drop (j+1)).length + 1)
                  (rest2.drop (j+1))
                  (jsInsert attrs
                    ((c0 :: t0).takeWhile (fun c => ¬ c = '=' ∧ ¬ isWhitespace c))
                    (rest2.take j))
                  (by omega))
              rw [hr]
              unfold parseAttrsSpecRun
              rw [hr]
              rfl

theorem drop_drop' (l : List Char) (m n : Nat) : (l.drop m).drop n = l.drop (m + n) := by
  rw [List.drop_drop, Nat.add_comm]

theorem scanName_spec : ∀ l : List Char,
    scanName l =
      match l.drop ((l.takeWhile (fun c => ¬ c = '=' ∧ ¬ isWhitespace c)).length) with
      | [] => .ok (l.takeWhile (fun c => ¬ c = '=' ∧ ¬ isWhitespace c)).length
      | c :: _ =>
        if isWhitespace c then .error "Attribute names may not contain whitespace"
        else .ok (l.takeWhile (fun c => ¬ c = '=' ∧ ¬ isWhitespace c)).length := by
  intro l
  induction l with
  | nil => rfl
  | cons c t ih =>
    by_cases hc : c = '='
    · subst hc
      rw [show scanName ('=' :: t) = .ok 0 from rfl]
      rw [List.takeWhile_cons, if_neg (by simp)]
      rfl
    · by_cases hw : isWhitespace c
      · rw [show scanName (c :: t) =
          if c = '=' then .ok 0
          else if isWhitespace c then .error "Attribute names may not contain whitespace"
          else (scanName t).map (· + 1) from rfl]
        rw [if_neg hc, if_pos hw]
        rw [List.takeWhile_cons, if_neg (by simp [hc, hw])]
        simp only [List.length_nil, List.drop_zero]
        rw [if_pos hw]
      · rw [show scanName (c :: t) =
          if c = '=' then .ok 0
          else if isWhitespace c then .error "Attribute names may not contain whitespace"
          else (scanName t).map (· + 1) from rfl]
        rw [if_neg hc, if_neg hw, ih]
        rw [List.takeWhile_cons, if_pos (by simp [hc, hw])]
        simp only [List.length_cons, List.drop_succ_cons]
        cases hrest : t.drop ((t.takeWhile (fun c => ¬ c = '=' ∧ ¬ isWhitespace c)).length) with
        | nil => rfl
        | cons c' r =>
          dsimp only
          split_ifs <;> rfl

theorem specRun_eq_of_dropWhile (l l' : List Char)
    (h : l.dropWhile isWhitespace = l'.dropWhile isWhitespace) (attrs : AttrList) :
    parseAttrsSpecRun l attrs = parseAttrsSpecRun l' attrs := by
  rw [parseAttrsSpecRun_step, parseAttrsSpecRun_step, h]

theorem attrs_code_spec :
    ∀ (n : Nat) (input : List Char) (pos : Nat) (attrs : AttrList),
      input.length - pos ≤ n →
      parseAttrsFrom input pos attrs = parseAttrsSpecRun (input.drop pos) attrs := by
  intro n
  induction n with
  | zero =>
    intro input pos attrs h
    have hge : input.length ≤ pos := by omega
    rw [parseAttrsFrom_step, parseAttrsSpecRun_step]
    rw [show input.get? pos = none from List.get?_eq_none.mpr hge]
    rw [List.drop_eq_nil_of_le hge]
    rfl
  | succ n ih =>
    intro input pos attrs hle
    rw [parseAttrsFrom_step]
    cases hget : input.get? pos with
    | none =>
      have hge : input.length ≤ pos := List.get?_eq_none.mp hget
      rw [parseAttrsSpecRun_step, List.drop_eq_nil_of_le hge]
      rfl
    | some c =>
      have hpos : pos < input.length := get?_some_lt hget
      have hdropc : input.drop pos = c :: input.drop (pos + 1) := drop_cons_of_get? hget
      have hlendrop : (input.drop pos).length = input.length - pos := by simp
      dsimp only
      split_ifs with hws
      · rw [ih input (pos+1) attrs (by omega)]
        apply specRun_eq_of_dropWhile
        rw [hdropc, List.dropWhile_cons, if_pos hws]
      · rw [scanName_spec, hdropc]
        rw [parseAttrsSpecRun_step, List.dropWhile_cons, if_neg hws]
        dsimp only
        set t := input.drop (pos + 1) with ht
        set k := ((c :: t).takeWhile (fun c => ¬ c = '=' ∧ ¬ isWhitespace c)).length with hk
        have hlenct : (c :: t).length = input.length - pos := by
          rw [← hdropc, hlendrop]
        cases hrest : (c :: t).drop k with
        | nil =>
          dsimp only
          have hlen : (c :: t).length ≤ k := by
            by_contra hcon
            push_neg at hcon
            have := congrArg List.length hrest
            simp only [List.length_drop, List.length_nil] at this
            omega
          rw [if_pos (by omega)]
        | cons c2 rest1 =>
          dsimp only
          have hlt : k < (c :: t).length := by
            by_contra hcon
            push_neg at hcon
            rw [List.drop_eq_nil_of_le hcon] at hrest
            exact absurd hrest (by simp)
          split_ifs with hwsc
          · rfl
          · dsimp only
            rw [if_neg (by omega)]
            have hget2 : input.get? (pos + k + 1) = rest1.head? := by
              rw [show pos + k + 1 = pos + (k + 1) from rfl, ← get?_drop', hdropc]
              rw [show (c :: t).get? (k + 1) = ((c :: t).drop k).get? 1 by
                rw [get?_drop']]
              rw [hrest]
              cases rest1 <;> rfl
            rw [hget2]
            cases rest1 with
            | nil => rfl
            | cons q rest2 =>
              dsimp only [List.head?_cons]
              split_ifs with hq
              · rfl
              · have hdrop2 : input.drop (pos + k + 2) = rest2 := by
                  rw [show pos + k + 2 = pos + (k + 2) from rfl, ← drop_drop', hdropc,
                    ← drop_drop', hrest]
                  rfl
                rw [show jsIndexOfFrom input [q] (pos + k + 2) =
                    (subIdx [q] rest2).map (· + (pos + k + 2)) by
                  rw [jsIndexOfFrom, hdrop2]]
                cases hj : subIdx [q] rest2 with
                | none => rfl
                | some j =>
                  dsimp only [Option.map_some']
                  have hname : jsSlice input pos (pos + k) =
                      (c :: t).takeWhile (fun c => ¬ c = '=' ∧ ¬ isWhitespace c) := by
                    rw [jsSlice, Nat.add_sub_cancel_left, hdropc, hk]
                    exact take_takeWhile _ _
                  have hvalue : jsSlice input (pos + k + 2) (j + (pos + k + 2)) =
                      rest2.take j := by
                    rw [jsSlice, Nat.add_sub_cancel, hdrop2]
                  rw [hname, hvalue]
                  rw [ih input (j + (pos + k + 2) + 1) _ (by omega)]
                  rw [show input.drop (j + (pos + k + 2) + 1) = rest2.drop (j + 1) by
                    rw [show j + (pos + k + 2) + 1 = (pos + k + 2) + (j + 1) by omega,
                      ← drop_drop', hdrop2]]

theorem parseAttrs_eq_spec (input : List Char) : parseAttrs input = parseAttrsSpec input := by
  rw [parseAttrs, parseAttrsSpec]
  have h := attrs_code_spec input.length input 0 [] (by omega)
  rwa [List.drop_zero] at h

theorem takeWhile_append_all {p : Char → Bool} :
    ∀ {n : List Char} (r : List Char), (∀ c ∈ n, p c = true) →
      (n ++ r).takeWhile p = n ++ r.takeWhile p := by
  intro n
  induction n with
  | nil => intro r _; rfl
  | cons c t ih =>
    intro r h
    rw [List.cons_append, List.takeWhile_cons, if_pos (h c (by simp)), ih r
      (fun d hd => h d (by simp [hd]))]
    rfl

theorem jsInsert_fresh {m : AttrList} {k : List Char} (v : List Char)
    (h : k ∉ m.map Prod.fst) : jsInsert m k v = m ++ [(k, v)] := by
  rw [jsInsert, if_neg]
  intro hcon
  exact h (by simpa using hcon)

theorem specRun_attr (n v T : List Char) (acc : AttrList)
    (hn : ∀ ch ∈ n, isWhitespace ch = false ∧ ¬ ch = '=') (hv : dquote ∉ v) :
    parseAttrsSpecRun (n ++ '=' :: dquote :: (v ++ dquote :: T)) acc =
      parseAttrsSpecRun T (jsInsert acc n v) := by
  obtain ⟨c0, t0, hct⟩ :
      ∃ c0 t0, n ++ '=' :: dquote :: (v ++ dquote :: T) = c0 :: t0 := by
    cases n with
    | nil => exact ⟨_, _, rfl⟩
    | cons a b => exact ⟨_, _, rfl⟩
  have hdw : (n ++ '=' :: dquote :: (v ++ dquote :: T)).dropWhile isWhitespace = c0 :: t0 := by
    cases n with
    | nil =>
      simp only [List.nil_append] at hct ⊢
      rw [List.dropWhile_cons, if_neg (by decide)]
      exact hct
    | cons a b =>
      simp only [List.cons_append] at hct ⊢
      injection hct with h1 h2
      subst h1
      rw [List.dropWhile_cons, if_neg (by rw [(hn a (by simp)).1]; simp)]
      rw [h2]
  have htw : (c0 :: t0).takeWhile (fun c => ¬ c = '=' ∧ ¬ isWhitespace c) = n := by
    rw [← hct]
    rw [takeWhile_append_all _ (fun c hc => by
      simp only [decide_eq_true_eq]
      refine ⟨(hn c hc).2, ?_⟩
      rw [(hn c hc).1]
      simp)]
    rw [List.takeWhile_cons, if_neg (by decide)]
    simp
  have hdrop : (c0 :: t0).drop n.length = '=' :: dquote :: (v ++ dquote :: T) := by
    rw [← hct]
    exact List.drop_left n _
  rw [parseAttrsSpecRun_step, hdw]
  dsimp only
  rw [htw, hdrop]
  dsimp only
  rw [if_neg (by decide)]
  rw [if_neg (by simp)]
  rw [subIdx_single_app dquote v T hv]
  dsimp only
  rw [List.take_left v _]
  have hdropv : (v ++ dquote :: T).drop (v.length + 1) = T := by
    rw [← drop_drop', List.drop_left v _]
    rfl
  rw [hdropv]

theorem specRun_serialize :
    ∀ (attrs acc : AttrList),
      (∀ p ∈ attrs, (∀ ch ∈ p.1, isWhitespace ch = false ∧ ¬ ch = '=') ∧
        dquote ∉ p.2 ∧ squote ∉ p.2) →
      parseAttrsSpecRun (serializeAttrs attrs) acc =
        .ok (attrs.foldl (fun m p => jsInsert m p.1 p.2) acc) := by
  intro attrs
  induction attrs with
  | nil =>
    intro acc _
    rw [serializeAttrs, parseAttrsSpecRun_step]
    rfl
  | cons p rest ih =>
    intro acc h
    cases rest with
    | nil =>
      rw [show serializeAttrs [p] =
        p.1 ++ '=' :: dquote :: (p.2 ++ dquote :: []) by simp [serializeAttrs]]
      rw [specRun_attr p.1 p.2 [] acc (h p (by simp)).1 (h p (by simp)).2.1]
      rw [parseAttrsSpecRun_step]
      rfl
    | cons p2 rest2 =>
      rw [show serializeAttrs (p :: p2 :: rest2) =
        p.1 ++ '=' :: dquote :: (p.2 ++ dquote :: (' ' :: serializeAttrs (p2 :: rest2))) by
        rw [show serializeAttrs (p :: p2 :: rest2) = (p.1 ++ '=' :: dquote :: p.2 ++ [dquote]) ++
          ' ' :: serializeAttrs (p2 :: rest2) from rfl]
        simp [List.append_assoc]]
      rw [specRun_attr p.1 p.2 _ acc (h p (by simp)).1 (h p (by simp)).2.1]
      rw [specRun_eq_of_dropWhile (' ' :: serializeAttrs (p2 :: rest2))
        (serializeAttrs (p2 :: rest2)) (by rw [List.dropWhile_cons, if_pos (by decide)])]
      rw [ih (jsInsert acc p.1 p.2) (fun q hq => h q (by simp [hq]))]
      rfl

theorem foldl_jsInsert_fresh :
    ∀ (attrs m : AttrList),
      (∀ p ∈ attrs, p.1 ∉ m.map Prod.fst) → (attrs.map Prod.fst).Nodup →
      attrs.foldl (fun m p => jsInsert m p.1 p.2) m = m ++ attrs := by
  intro attrs
  induction attrs with
  | nil => intro m _ _; simp
  | cons p rest ih =>
    intro m hfresh hnodup
    rw [List.foldl_cons, jsInsert_fresh p.2 (hfresh p (by simp))]
    rw [show ((p.1, p.2) : List Char × List Char) = p from rfl]
    rw [ih (m ++ [p]) ?fresh ?nodup]
    · simp
    case fresh =>
      intro q hq
      simp only [List.map_append, List.mem_append, not_or]
      constructor
      · exact hfresh q (by simp [hq])
      · simp only [List.map_cons, List.map_nil, List.mem_singleton]
        simp only [List.map_cons, List.nodup_cons] at hnodup
        intro hqe
        exact hnodup.1 (hqe ▸ List.mem_map_of_mem Prod.fst hq)
    case nodup =>
      simp only [List.map_cons, List.nodup_cons] at hnodup
      exact hnodup.2

/-! ### Claim theorems for the attribute parser (C6, C9) -/

/-- C6 (counterexample): the claim assigns the input `" a="` (input ends
while expecting a value for a started attribute) the error "Expected a
value for the attribute"; the code only raises that error when the input
ends while scanning for `=`, and on `" a="` it reads the end-of-input as
the missing quote character and throws "Attribute values should be
quoted". -/
theorem c6_attr_failure_counterexample :
    parseAttrs (String.toList " a=") = .error "Attribute values should be quoted" ∧
      parseAttrs (String.toList " a=") ≠ .error "Expected a value for the attribute" ∧
      parseAttrs (String.toList " a") = .error "Expected a value for the attribute" := by
  refine ⟨?_, ?_, ?_⟩ <;> decide

/-- C6 (amended): `parseAttrs` agrees exactly — same successes, same
mapping, same error messages — with the specification-level algorithm of
§4.2 in which "input ends while expecting `=`" yields "Expected a value
for the attribute" while an input ending directly after `=` (or any
non-quote character there) yields "Attribute values should be quoted";
whitespace met before the `=` yields the attribute-name error, a missing
closing quote yields "Unclosed attribute value", and success returns the
name-to-value mapping with duplicates resolved last-wins. -/
theorem c6_attr_failure_contract_amended :
    ∀ input : List Char, parseAttrs input = parseAttrsSpec input :=
  parseAttrs_eq_spec

/-- C9: serializing an attribute mapping whose names contain no
whitespace and no `=` and whose values contain no quote characters as
`name="value"` pairs joined by single spaces, then parsing the result,
reproduces exactly the original mapping. -/
theorem c9_attr_round_trip (attrs : AttrList)
    (hnodup : (attrs.map Prod.fst).Nodup)
    (h : ∀ p ∈ attrs, (∀ ch ∈ p.1, isWhitespace ch = false ∧ ¬ ch = '=') ∧
      dquote ∉ p.2 ∧ squote ∉ p.2) :
    parseAttrs (serializeAttrs attrs) = .ok attrs := by
  rw [parseAttrs_eq_spec, parseAttrsSpec]
  rw [specRun_serialize attrs [] h]
  rw [foldl_jsInsert_fresh attrs [] (by simp) hnodup]
  rfl

/-- C9 (witness): the round trip applied to the concrete mapping
`a → 1, b → two words`. -/
theorem c9_attr_round_trip_witness :
    parseAttrs (serializeAttrs [(String.toList "a", String.toList "1"),
      (String.toList "b", String.toList "two words")]) =
      .ok [(String.toList "a", String.toList "1"),
        (String.toList "b", String.toList "two words")] :=
  c9_attr_round_trip _ (by decide) (by decide)

/-! ### Fuel lemmas for the `_parseChunk` loop -/

theorem handleTag_cont_gt {input : List Char} {pos : Nat} {stack : List (List Char)}
    {evs : List Event} {next : Nat} {st : List (List Char)}
    (h : handleTag input pos stack = .cont evs next st) : pos < next := by
  simp only [handleTag] at h
  by_cases hb : input.get? (pos + 1) = some '!'
  · rw [if_pos hb] at h
    cases hc2 : input.get? (pos + 1 + 1) with
    | none =>
      rw [hc2] at h
      injection h
    | some c2 =>
      rw [hc2] at h
      dsimp only at h
      split_ifs at h with hcd hcm
      · cases hclose : jsIndexOfFrom input (String.toList "]]>") (pos + 1 + 1 + 7) with
        | none =>
          rw [hclose] at h
          injection h
        | some cdataClose =>
          rw [hclose] at h
          dsimp only at h
          have hge := jsIndexOfFrom_ge hclose
          simp only [TagStep.cont.injEq] at h
          omega
      · cases hclose : jsIndexOfFrom input (String.toList "--") (pos + 1 + 1 + 2) with
        | none =>
          rw [hclose] at h
          injection h
        | some commentClose =>
          rw [hclose] at h
          dsimp only at h
          have hge := jsIndexOfFrom_ge hclose
          split_ifs at h <;>
            first
              | (injection h with h1 h2 h3; omega)
              | injection h
      all_goals injection h
  · rw [if_neg hb] at h
    by_cases hq : input.get? (pos + 1) = some '?'
    · rw [if_pos hq] at h
      cases hclose : jsIndexOfFrom input (String.toList "?>") (pos + 1 + 1) with
      | none =>
        rw [hclose] at h
        injection h
      | some piClose =>
        rw [hclose] at h
        dsimp only at h
        have hge := jsIndexOfFrom_ge hclose
        simp only [TagStep.cont.injEq] at h
        omega
    · rw [if_neg hq] at h
      cases hclose : jsIndexOfFrom input ['>'] (pos + 1) with
      | none =>
        rw [hclose] at h
        injection h
      | some tagClose =>
        rw [hclose] at h
        dsimp only at h
        have hge := jsIndexOfFrom_ge hclose
        by_cases hslash : input.get? (pos + 1) = some '/'
        · rw [if_pos hslash] at h
          cases hpop : stack.getLast? with
          | none =>
            rw [hpop] at h
            injection h
          | some popped =>
            rw [hpop] at h
            dsimp only at h
            split_ifs at h <;>
              first
                | (injection h with h1 h2 h3; omega)
                | injection h
        · rw [if_neg hslash] at h
          cases hws : pIdx isJsWs (input.drop (pos + 1)) with
          | none =>
            rw [hws] at h
            dsimp only at h
            injection h with h1 h2 h3
            omega
          | some w =>
            rw [hws] at h
            dsimp only at h
            split_ifs at h <;>
              first
                | (injection h with h1 h2 h3; omega)
                | injection h

theorem isPrefixOf_length_le : ∀ (p l : List Char), p.isPrefixOf l = true →
    p.length ≤ l.length
  | [], _, _ => by simp
  | a :: p, [], h => by simp [List.isPrefixOf] at h
  | a :: p, b :: l, h => by
    simp only [List.isPrefixOf, Bool.and_eq_true] at h
    have hrec := isPrefixOf_length_le p l h.2
    simp only [List.length_cons]
    omega

theorem subIdx_add_le {pat l : List Char} {i : Nat}
    (h : subIdx pat l = some i) : i + pat.length ≤ l.length := by
  induction l generalizing i with
  | nil =>
    cases pat with
    | nil =>
      simp only [subIdx, List.isEmpty_nil, if_true] at h
      injection h with h1
      omega
    | cons p ps => simp [subIdx] at h
  | cons c t ih =>
    simp only [subIdx] at h
    split_ifs at h with hpre
    · injection h with h1
      have hlen := isPrefixOf_length_le _ _ hpre
      simp only [List.length_cons] at hlen ⊢
      omega
    · cases hs : subIdx pat t with
      | none =>
        rw [hs] at h
        injection h
      | some j =>
        rw [hs] at h
        have hj := ih hs
        simp only [Option.map_some'] at h
        injection h with h1
        simp only [List.length_cons]
        omega

theorem jsIndexOfFrom_add_le {hay pat : List Char} {s i : Nat} (hp : pat ≠ [])
    (h : jsIndexOfFrom hay pat s = some i) : i + pat.length ≤ hay.length := by
  simp only [jsIndexOfFrom, Option.map_eq_some'] at h
  obtain ⟨j, hj, rfl⟩ := h
  have h1 := subIdx_add_le hj
  have h2 : (hay.drop s).length = hay.length - s := by simp
  have h3 : s ≤ hay.length := by
    by_contra hs
    push_neg at hs
    rw [List.drop_eq_nil_of_le (le_of_lt hs)] at hj
    cases pat with
    | nil => exact hp rfl
    | cons p ps => simp [subIdx] at hj
  omega

theorem handleTag_cont_le {input : List Char} {pos : Nat} {stack : List (List Char)}
    {evs : List Event} {next : Nat} {st : List (List Char)}
    (h : handleTag input pos stack = .cont evs next st) : next ≤ input.length := by
  simp only [handleTag] at h
  by_cases hb : input.get? (pos + 1) = some '!'
  · rw [if_pos hb] at h
    cases hc2 : input.get? (pos + 1 + 1) with
    | none =>
      rw [hc2] at h
      injection h
    | some c2 =>
      rw [hc2] at h
      dsimp only at h
      split_ifs at h with hcd hcm
      · cases hclose : jsIndexOfFrom input (String.toList "]]>") (pos + 1 + 1 + 7) with
        | none =>
          rw [hclose] at h
          injection h
        | some cdataClose =>
          rw [hclose] at h
          dsimp only at h
          have hle := jsIndexOfFrom_add_le (by decide) hclose
          have hl3 : (String.toList "]]>").length = 3 := rfl
          simp only [TagStep.cont.injEq] at h
          omega
      · cases hclose : jsIndexOfFrom input (String.toList "--") (pos + 1 + 1 + 2) with
        | none =>
          rw [hclose] at h
          injection h
        | some commentClose =>
          rw [hclose] at h
          dsimp only at h
          split_ifs at h with hq
          push_neg at hq
          have hlt2 := get?_some_lt hq
          injection h with h1 h2 h3
          omega
      all_goals injection h
  · rw [if_neg hb] at h
    by_cases hq : input.get? (pos + 1) = some '?'
    · rw [if_pos hq] at h
      cases hclose : jsIndexOfFrom input (String.toList "?>") (pos + 1 + 1) with
      | none =>
        rw [hclose] at h
        injection h
      | some piClose =>
        rw [hclose] at h
        dsimp only at h
        have hle := jsIndexOfFrom_add_le (by decide) hclose
        have hl2 : (String.toList "?>").length = 2 := rfl
        simp only [TagStep.cont.injEq] at h
        omega
    · rw [if_neg hq] at h
      cases hclose : jsIndexOfFrom input ['>'] (pos + 1) with
      | none =>
        rw [hclose] at h
        injection h
      | some tagClose =>
        rw [hclose] at h
        dsimp only at h
        have hle := jsIndexOfFrom_add_le (by decide) hclose
        have hl1 : (['>'] : List Char).length = 1 := rfl
        by_cases hslash : input.get? (pos + 1) = some '/'
        · rw [if_pos hslash] at h
          cases hpop : stack.getLast? with
          | none =>
            rw [hpop] at h
            injection h
          | some popped =>
            rw [hpop] at h
            dsimp only at h
            split_ifs at h <;>
              first
                | (injection h with h1 h2 h3; omega)
                | injection h
        · rw [if_neg hslash] at h
          cases hws : pIdx isJsWs (input.drop (pos + 1)) with
          | none =>
            rw [hws] at h
            dsimp only at h
            injection h with h1 h2 h3
            omega
          | some w =>
            rw [hws] at h
            dsimp only at h
            split_ifs at h <;>
              first
                | (injection h with h1 h2 h3; omega)
                | injection h

theorem parseLoopF_congr (input : List Char) :
    ∀ f1 f2 pos stack, input.length - pos < f1 → input.length - pos < f2 →
      parseLoopF f1 input pos stack = parseLoopF f2 input pos stack := by
  intro f1
  induction f1 with
  | zero => omega
  | succ f1 ih =>
    intro f2 pos stack h1 h2
    match f2, h2 with
    | f2+1, h2 =>
      by_cases hp : pos < input.length
      · by_cases hlt : input.get? pos = some '<'
        · simp only [parseLoopF, if_pos hp, if_pos hlt]
          cases hh : handleTag input pos stack with
          | done r => rfl
          | cont evs next stack1 =>
            dsimp only
            have hgt := handleTag_cont_gt hh
            rw [ih f2 next stack1 (by omega) (by omega)]
        · simp only [parseLoopF, if_pos hp, if_neg hlt]
          cases ht : jsIndexOfFrom input ['<'] pos with
          | none => rfl
          | some nextTag =>
            have hge := jsIndexOfFrom_ge ht
            dsimp only
            cases hh : handleTag input nextTag stack with
            | done r => rfl
            | cont evs next stack1 =>
              dsimp only
              have hgt := handleTag_cont_gt hh
              rw [ih f2 next stack1 (by omega) (by omega)]
      · simp only [parseLoopF, if_neg hp]

theorem parseLoopF_isSome (input : List Char) :
    ∀ fuel pos stack, input.length - pos < fuel →
      (parseLoopF fuel input pos stack).isSome := by
  intro fuel
  induction fuel with
  | zero => omega
  | succ f ih =>
    intro pos stack h
    by_cases hp : pos < input.length
    · by_cases hlt : input.get? pos = some '<'
      · simp only [parseLoopF, if_pos hp, if_pos hlt]
        cases hh : handleTag input pos stack with
        | done r => rfl
        | cont evs next stack1 =>
          dsimp only
          have hgt := handleTag_cont_gt hh
          obtain ⟨r, hr⟩ := Option.isSome_iff_exists.mp (ih next stack1 (by omega))
          rw [hr]
          rfl
      · simp only [parseLoopF, if_pos hp, if_neg hlt]
        cases ht : jsIndexOfFrom input ['<'] pos with
        | none => rfl
        | some nextTag =>
          have hge := jsIndexOfFrom_ge ht
          dsimp only
          cases hh : handleTag input nextTag stack with
          | done r => rfl
          | cont evs next stack1 =>
            dsimp only
            have hgt := handleTag_cont_gt hh
            obtain ⟨r, hr⟩ := Option.isSome_iff_exists.mp (ih next stack1 (by omega))
            rw [hr]
            rfl
    · simp only [parseLoopF, if_neg hp]
      rfl

theorem runFrom_step (input : List Char) (pos : Nat) (stack : List (List Char)) :
    runFrom input pos stack =
      if pos < input.length then
        if input.get? pos = some '<' then
          match handleTag input pos stack with
          | .done r => r
          | .cont evs next stack1 =>
            { runFrom input next stack1 with
              events := evs ++ (runFrom input next stack1).events }
        else
          match jsIndexOfFrom input ['<'] pos with
          | none => ⟨[], some (.text, input.drop pos), stack, none⟩
          | some nextTag =>
            match handleTag input nextTag stack with
            | .done r => { r with events := .text (jsSlice input pos nextTag) :: r.events }
            | .cont evs next stack1 =>
              { runFrom input next stack1 with
                events := .text (jsSlice input pos nextTag) ::
                  (evs ++ (runFrom input next stack1).events) }
      else ⟨[], none, stack, none⟩ := by
  by_cases hp : pos < input.length
  · rw [if_pos hp]
    unfold runFrom
    conv_lhs => rw [show input.length + 1 - pos = (input.length - pos) + 1 by omega]
    by_cases hlt : input.get? pos = some '<'
    · simp only [parseLoopF, if_pos hp, if_pos hlt]
      cases hh : handleTag input pos stack with
      | done r => rfl
      | cont evs next stack1 =>
        dsimp only
        have hgt := handleTag_cont_gt hh
        have hle := handleTag_cont_le hh
        rw [parseLoopF_congr input (input.length - pos) (input.length + 1 - next)
          next stack1 (by omega) (by omega)]
        obtain ⟨r, hr⟩ := Option.isSome_iff_exists.mp
          (parseLoopF_isSome input (input.length + 1 - next) next stack1 (by omega))
        rw [hr]
        rfl
    · simp only [parseLoopF, if_pos hp, if_neg hlt]
      cases ht : jsIndexOfFrom input ['<'] pos with
      | none => rfl
      | some nextTag =>
        have hge := jsIndexOfFrom_ge ht
        dsimp only
        cases hh : handleTag input nextTag stack with
        | done r => rfl
        | cont evs next stack1 =>
          dsimp only
          have hgt := handleTag_cont_gt hh
          have hle := handleTag_cont_le hh
          rw [parseLoopF_congr input (input.length - pos) (input.length + 1 - next)
            next stack1 (by omega) (by omega)]
          obtain ⟨r, hr⟩ := Option.isSome_iff_exists.mp
            (parseLoopF_isSome input (input.length + 1 - next) next stack1 (by omega))
          rw [hr]
          rfl
  · rw [if_neg hp]
    unfold runFrom
    by_cases hz : input.length + 1 - pos = 0
    · rw [hz]
      rfl
    · rw [show input.length + 1 - pos = (input.length - pos) + 1 by omega]
      simp only [parseLoopF, if_neg hp]
      rfl

/-- **C1** (chunk invariance) is violated by the code: splitting the input
`<!--x-->` into the chunks `<!--x--` and `>` makes the tokenizer report the
fatal error `Unexpected -- inside comment`, while feeding the same input in
a single chunk yields the comment event `x` and a clean finish. The culprit
is the terminator check `input[commentClose + 2] !== '>'` in `_parseChunk`,
which runs even when the comment's closing `--` sits at the very end of the
buffered data and the `>` is still to come in a later chunk. -/
theorem c1_chunk_invariance_counterexample :
    runAll [String.toList "<!--x--", String.toList ">"]
        = ([], some SaxErr.unexpectedDashes) ∧
    saxParse (String.toList "<!--x-->") = ([Event.comment ['x']], none) := by
  decide

/-- **C2** (finish postcondition) fails in the code: `_final` inspects
`this._waiting.tag`, but `_wait` stores the token kind under the key
`token`, so every case of the unclosed-token switch is dead. Finishing
with a pending opening tag (input `<tag`) ends cleanly instead of raising
`Unclosed tag`, and a pending text fragment (input `a`) is silently
dropped instead of being emitted as a final text event. -/
theorem c2_final_waiting_dead_switch :
    saxParse (String.toList "<tag") = ([], none) ∧
    saxParse (String.toList "a") = ([], none) := by
  decide

/-- **C4** (markup-declaration dispatch) fails in the code: the CDATA
recognizer checks `'CDATA['.indexOf(slice) > -1`, a substring test, so the
non-CDATA sequence `<![ATA[` is treated as the start of a CDATA section —
the parser buffers it waiting for `]]>` and then finishes cleanly — instead
of raising `Unrecognized sequence: <![`. -/
theorem c4_cdata_substring_recognizer :
    (parseChunkRun (String.toList "<![ATA[") []).waiting
        = some (NodeKind.cdata, String.toList "<![ATA[") ∧
    (parseChunkRun (String.toList "<![ATA[") []).err = none ∧
    saxParse (String.toList "<![ATA[") = ([], none) := by
  decide

theorem pIdx_append_none {p : Char → Bool} {l r : List Char}
    (h : pIdx p l = none) (hr : pIdx p r = none) : pIdx p (l ++ r) = none := by
  induction l with
  | nil => simpa using hr
  | cons c t ih =>
    cases hc : p c with
    | true =>
      rw [pIdx, hc, if_pos rfl] at h
      exact absurd h (by simp)
    | false =>
      rw [pIdx, hc] at h
      rw [if_neg (by simp)] at h
      rw [List.cons_append, pIdx, hc, if_neg (by simp),
        ih (Option.map_eq_none'.mp h)]
      rfl

theorem pIdx_append_some {p : Char → Bool} {l : List Char} {w : Nat}
    (h : pIdx p l = some w) (r : List Char) : pIdx p (l ++ r) = some w := by
  induction l generalizing w with
  | nil => simp [pIdx] at h
  | cons c t ih =>
    cases hc : p c with
    | true =>
      rw [pIdx, hc, if_pos rfl] at h
      rw [List.cons_append, pIdx, hc, if_pos rfl]
      exact h
    | false =>
      rw [pIdx, hc, if_neg (by simp)] at h
      rw [List.cons_append, pIdx, hc, if_neg (by simp)]
      cases hs : pIdx p t with
      | none => rw [hs] at h; exact absurd h (by simp)
      | some j =>
        rw [hs] at h
        rw [ih hs]
        exact h

theorem pIdx_lt {p : Char → Bool} {l : List Char} {w : Nat}
    (h : pIdx p l = some w) : w < l.length := by
  induction l generalizing w with
  | nil => simp [pIdx] at h
  | cons c t ih =>
    cases hc : p c with
    | true =>
      rw [pIdx, hc, if_pos rfl] at h
      injection h with h1
      simp [← h1]
    | false =>
      rw [pIdx, hc, if_neg (by simp)] at h
      cases hs : pIdx p t with
      | none => rw [hs] at h; exact absurd h (by simp)
      | some j =>
        rw [hs] at h
        simp only [Option.map_some'] at h
        injection h with h1
        have := ih hs
        simp only [List.length_cons]
        omega

theorem take_append_le {l r : List Char} {n : Nat} (h : n ≤ l.length) :
    (l ++ r).take n = l.take n := by
  induction l generalizing n with
  | nil =>
    simp at h
    simp [h]
  | cons c t ih =>
    cases n with
    | zero => rfl
    | succ m =>
      simp only [List.length_cons] at h
      simp only [List.cons_append, List.take_cons_succ]
      rw [ih (by omega)]

theorem drop_append_le {l r : List Char} {n : Nat} (h : n ≤ l.length) :
    (l ++ r).drop n = l.drop n ++ r := by
  induction l generalizing n with
  | nil =>
    simp at h
    simp [h]
  | cons c t ih =>
    cases n with
    | zero => rfl
    | succ m =>
      simp only [List.length_cons] at h
      simp only [List.cons_append, List.drop_succ_cons]
      exact ih (by omega)

/-- **C5** is wrong as stated: the code splits the tag interior with the JS
regex `/\s/`, not with the four-character set {space, tab, CR, LF}.  The
interior `a\x0Cb` of `<a\x0Cb>` contains none of those four characters, so
the claim predicts name `a\x0Cb` and empty attributes, but the form feed
matches `/\s/` and the code splits there: name `a`, raw attributes
`\x0Cb`. -/
theorem c5_tag_splitting_counterexample :
    parseChunkRun (String.toList "<a\x0Cb>") [] =
      ⟨[Event.tagOpen ['a'] (Char.ofNat 12 :: ['b']) false], none, [['a']], none⟩ := by
  decide

theorem evolve_append (l1 : List Event) :
    ∀ (st : List (List Char)) (l2 : List Event),
      evolve st (l1 ++ l2) = (evolve st l1).bind (fun s => evolve s l2) := by
  induction l1 with
  | nil => intro st l2; rfl
  | cons e es ih =>
    intro st l2
    cases e with
    | text s => simpa [evolve] using ih st l2
    | cdata s => simpa [evolve] using ih st l2
    | comment s => simpa [evolve] using ih st l2
    | processingInstruction s => simpa [evolve] using ih st l2
    | tagOpen n a b =>
      cases b with
      | false => simpa [evolve] using ih (st ++ [n]) l2
      | true => simpa [evolve] using ih st l2
    | tagClose n =>
      simp only [List.cons_append, evolve]
      cases hp : st.getLast? with
      | none => rfl
      | some p =>
        dsimp only
        by_cases hpn : p = n
        · rw [if_pos hpn, if_pos hpn]
          exact ih st.dropLast l2
        · rw [if_neg hpn, if_neg hpn]
          rfl

theorem handleTag_evolve_cont {input : List Char} {pos : Nat}
    {stack : List (List Char)} {evs : List Event} {next : Nat}
    {st : List (List Char)}
    (h : handleTag input pos stack = .cont evs next st) :
    evolve stack evs = some st := by
  simp only [handleTag] at h
  by_cases hb : input.get? (pos + 1) = some '!'
  · rw [if_pos hb] at h
    cases hc2 : input.get? (pos + 1 + 1) with
    | none =>
      rw [hc2] at h
      injection h
    | some c2 =>
      rw [hc2] at h
      dsimp only at h
      split_ifs at h with hcd hcm
      · cases hclose : jsIndexOfFrom input (String.toList "]]>") (pos + 1 + 1 + 7) with
        | none =>
          rw [hclose] at h
          injection h
        | some cdataClose =>
          rw [hclose] at h
          dsimp only at h
          injection h with h1 h2 h3
          subst h1; subst h3
          rfl
      · cases hclose : jsIndexOfFrom input (String.toList "--") (pos + 1 + 1 + 2) with
        | none =>
          rw [hclose] at h
          injection h
        | some commentClose =>
          rw [hclose] at h
          dsimp only at h
          split_ifs at h with hq
          injection h with h1 h2 h3
          subst h1; subst h3
          rfl
      all_goals injection h
  · rw [if_neg hb] at h
    by_cases hq : input.get? (pos + 1) = some '?'
    · rw [if_pos hq] at h
      cases hclose : jsIndexOfFrom input (String.toList "?>") (pos + 1 + 1) with
      | none =>
        rw [hclose] at h
        injection h
      | some piClose =>
        rw [hclose] at h
        dsimp only at h
        injection h with h1 h2 h3
        subst h1; subst h3
        rfl
    · rw [if_neg hq] at h
      cases hclose : jsIndexOfFrom input ['>'] (pos + 1) with
      | none =>
        rw [hclose] at h
        injection h
      | some tagClose =>
        rw [hclose] at h
        dsimp only at h
        by_cases hslash : input.get? (pos + 1) = some '/'
        · rw [if_pos hslash] at h
          cases hpop : stack.getLast? with
          | none =>
            rw [hpop] at h
            injection h
          | some popped =>
            rw [hpop] at h
            dsimp only at h
            split_ifs at h with hne
            injection h with h1 h2 h3
            subst h1; subst h3
            push_neg at hne
            simp [evolve, hpop, hne]
        · rw [if_neg hslash] at h
          by_cases hP : input.get? (tagClose - 1) = some '/'
          · rw [hP] at h
            simp only [if_pos (rfl : some '/' = some '/'),
              decide_eq_true_eq] at h
            cases hws : pIdx isJsWs (input.drop (pos + 1)) with
            | none =>
              rw [hws] at h
              dsimp only at h
              injection h with h1 h2 h3
              subst h1; subst h3
              simp [evolve]
            | some w =>
              rw [hws] at h
              dsimp only at h
              split_ifs at h <;>
                first
                  | (injection h with h1 h2 h3; subst h1; subst h3;
                      simp [evolve])
                  | injection h
          · simp only [eq_false hP, if_false] at h
            cases hws : pIdx isJsWs (input.drop (pos + 1)) with
            | none =>
              rw [hws] at h
              dsimp only at h
              injection h with h1 h2 h3
              subst h1; subst h3
              simp [evolve]
            | some w =>
              rw [hws] at h
              dsimp only at h
              split_ifs at h <;>
                first
                  | (injection h with h1 h2 h3; subst h1; subst h3;
                      simp [evolve])
                  | injection h

theorem handleTag_evolve_done {input : List Char} {pos : Nat}
    {stack : List (List Char)} {r : RunRes}
    (h : handleTag input pos stack = .done r) :
    r.events = [] ∧
    ((∀ p, r.err ≠ some (SaxErr.unclosedTag p)) → r.stack = stack) ∧
    (∀ p, r.err = some (SaxErr.unclosedTag p) → r.stack = [] ∧
      stack.getLast? = p) := by
  simp only [handleTag] at h
  by_cases hb : input.get? (pos + 1) = some '!'
  · rw [if_pos hb] at h
    cases hc2 : input.get? (pos + 1 + 1) with
    | none =>
      rw [hc2] at h
      injection h with h1
      subst h1
      refine ⟨rfl, fun _ => rfl, fun p hp => Option.noConfusion hp⟩
    | some c2 =>
      rw [hc2] at h
      dsimp only at h
      split_ifs at h with hcd hcm
      · cases hclose : jsIndexOfFrom input (String.toList "]]>") (pos + 1 + 1 + 7) with
        | none =>
          rw [hclose] at h
          injection h with h1
          subst h1
          refine ⟨rfl, fun _ => rfl, fun p hp => Option.noConfusion hp⟩
        | some cdataClose =>
          rw [hclose] at h
          injection h
      · cases hclose : jsIndexOfFrom input (String.toList "--") (pos + 1 + 1 + 2) with
        | none =>
          rw [hclose] at h
          injection h with h1
          subst h1
          refine ⟨rfl, fun _ => rfl, fun p hp => Option.noConfusion hp⟩
        | some commentClose =>
          rw [hclose] at h
          dsimp only at h
          split_ifs at h with hq
          injection h with h1
          subst h1
          refine ⟨rfl, fun _ => rfl, fun p hp => ?_⟩
          injection hp with h4
          injection h4
      · injection h with h1
        subst h1
        refine ⟨rfl, fun _ => rfl, fun p hp => ?_⟩
        injection hp with h4
        injection h4
  · rw [if_neg hb] at h
    by_cases hq : input.get? (pos + 1) = some '?'
    · rw [if_pos hq] at h
      cases hclose : jsIndexOfFrom input (String.toList "?>") (pos + 1 + 1) with
      | none =>
        rw [hclose] at h
        injection h with h1
        subst h1
        refine ⟨rfl, fun _ => rfl, fun p hp => Option.noConfusion hp⟩
      | some piClose =>
        rw [hclose] at h
        injection h
    · rw [if_neg hq] at h
      cases hclose : jsIndexOfFrom input ['>'] (pos + 1) with
      | none =>
        rw [hclose] at h
        injection h with h1
        subst h1
        refine ⟨rfl, fun _ => rfl, fun p hp => Option.noConfusion hp⟩
      | some tagClose =>
        rw [hclose] at h
        dsimp only at h
        by_cases hslash : input.get? (pos + 1) = some '/'
        · rw [if_pos hslash] at h
          cases hpop : stack.getLast? with
          | none =>
            rw [hpop] at h
            injection h with h1
            subst h1
            refine ⟨rfl, fun hall => absurd rfl (hall none), fun p hp => ?_⟩
            injection hp with h4
            injection h4 with h5
            subst h5
            exact ⟨rfl, rfl⟩
          | some popped =>
            rw [hpop] at h
            dsimp only at h
            split_ifs at h with hne
            injection h with h1
            subst h1
            refine ⟨rfl, fun hall => absurd rfl (hall (some popped)),
              fun p hp => ?_⟩
            injection hp with h4
            injection h4 with h5
            subst h5
            exact ⟨rfl, rfl⟩
        · rw [if_neg hslash] at h
          by_cases hP : input.get? (tagClose - 1) = some '/'
          · rw [hP] at h
            simp only [if_pos (rfl : some '/' = some '/'),
              decide_eq_true_eq] at h
            cases hws : pIdx isJsWs (input.drop (pos + 1)) with
            | none =>
              rw [hws] at h
              injection h
            | some w =>
              rw [hws] at h
              dsimp only at h
              split_ifs at h
              all_goals first
                | (injection h with h1; subst h1;
                    exact ⟨rfl, fun _ => rfl, fun p hp => by
                      injection hp with h4; injection h4⟩)
                | injection h
          · simp only [eq_false hP, if_false] at h
            cases hws : pIdx isJsWs (input.drop (pos + 1)) with
            | none =>
              rw [hws] at h
              injection h
            | some w =>
              rw [hws] at h
              dsimp only at h
              split_ifs at h
              all_goals first
                | (injection h with h1; subst h1;
                    exact ⟨rfl, fun _ => rfl, fun p hp => by
                      injection hp with h4; injection h4⟩)
                | injection h

theorem evolve_text_cons (st : List (List Char)) (s : List Char)
    (es : List Event) : evolve st (Event.text s :: es) = evolve st es := rfl

theorem parseLoopF_stack (input : List Char) :
    ∀ fuel pos stack r, parseLoopF fuel input pos stack = some r →
      ((∀ p, r.err ≠ some (SaxErr.unclosedTag p)) →
        evolve stack r.events = some r.stack) ∧
      (∀ p, r.err = some (SaxErr.unclosedTag p) → r.stack = [] ∧
        ∃ s', evolve stack r.events = some s' ∧ s'.getLast? = p) := by
  intro fuel
  induction fuel with
  | zero =>
    intro pos stack r h
    exact absurd h (by simp [parseLoopF])
  | succ f ih =>
    intro pos stack r h
    by_cases hp : pos < input.length
    · by_cases hlt : input.get? pos = some '<'
      · simp only [parseLoopF, if_pos hp, if_pos hlt] at h
        cases hh : handleTag input pos stack with
        | done r0 =>
          rw [hh] at h
          injection h with h1
          subst h1
          obtain ⟨hev, hs1, hs2⟩ := handleTag_evolve_done hh
          refine ⟨fun hall => ?_, fun p hpe => ?_⟩
          · rw [hev, hs1 hall]
            rfl
          · obtain ⟨hst, hgl⟩ := hs2 p hpe
            exact ⟨hst, stack, by rw [hev]; rfl, hgl⟩
        | cont evs next st1 =>
          rw [hh] at h
          dsimp only at h
          cases hr : parseLoopF f input next st1 with
          | none =>
            rw [hr] at h
            exact absurd h (by simp)
          | some r1 =>
            rw [hr] at h
            simp only [Option.map_some'] at h
            injection h with h1
            subst h1
            have hev1 := handleTag_evolve_cont hh
            obtain ⟨ih1, ih2⟩ := ih next st1 r1 hr
            dsimp only
            refine ⟨fun hall => ?_, fun p hpe => ?_⟩
            · rw [evolve_append evs stack r1.events, hev1]
              exact ih1 hall
            · obtain ⟨hst, s', hs', hgl⟩ := ih2 p hpe
              refine ⟨hst, s', ?_, hgl⟩
              rw [evolve_append evs stack r1.events, hev1]
              exact hs'
      · simp only [parseLoopF, if_pos hp, if_neg hlt] at h
        cases ht : jsIndexOfFrom input ['<'] pos with
        | none =>
          rw [ht] at h
          injection h with h1
          subst h1
          exact ⟨fun _ => rfl, fun p hpe => Option.noConfusion hpe⟩
        | some nextTag =>
          rw [ht] at h
          dsimp only at h
          cases hh : handleTag input nextTag stack with
          | done r0 =>
            rw [hh] at h
            dsimp only at h
            injection h with h1
            subst h1
            obtain ⟨hev, hs1, hs2⟩ := handleTag_evolve_done hh
            dsimp only
            refine ⟨fun hall => ?_, fun p hpe => ?_⟩
            · rw [evolve_text_cons, hev, hs1 hall]
              rfl
            · obtain ⟨hst, hgl⟩ := hs2 p hpe
              exact ⟨hst, stack, by rw [evolve_text_cons, hev]; rfl, hgl⟩
          | cont evs next st1 =>
            rw [hh] at h
            dsimp only at h
            cases hr : parseLoopF f input next st1 with
            | none =>
              rw [hr] at h
              exact absurd h (by simp)
            | some r1 =>
              rw [hr] at h
              simp only [Option.map_some'] at h
              injection h with h1
              subst h1
              have hev1 := handleTag_evolve_cont hh
              obtain ⟨ih1, ih2⟩ := ih next st1 r1 hr
              dsimp only
              refine ⟨fun hall => ?_, fun p hpe => ?_⟩
              · rw [evolve_text_cons, evolve_append evs stack r1.events, hev1]
                exact ih1 hall
              · obtain ⟨hst, s', hs', hgl⟩ := ih2 p hpe
                refine ⟨hst, s', ?_, hgl⟩
                rw [evolve_text_cons, evolve_append evs stack r1.events, hev1]
                exact hs'
    · simp only [parseLoopF, if_neg hp] at h
      injection h with h1
      subst h1
      exact ⟨fun _ => rfl, fun p hpe => Option.noConfusion hpe⟩

/-- **C3** (open-tag stack discipline), confirmed: running `_parseChunk` on
any input from any tag stack, the emitted events replay exactly on the
stack — each non-self-closing `tagOpen` pushes its name, self-closing ones
do not, each `tagClose` pops its own name (`evolve`) — and the final stack
of the run is the replayed stack.  If instead the run stops with the
`Unclosed tag` error, the element recorded in the error is precisely the
top of the replayed stack at that point (`none` when the stack was empty,
the mismatching popped name otherwise) and the code has cleared the
stack. -/
theorem c3_stack_discipline (input : List Char) (stack : List (List Char)) :
    (isUnclosedTagErr (parseChunkRun input stack).err = false →
      evolve stack (parseChunkRun input stack).events
        = some (parseChunkRun input stack).stack) ∧
    (∀ p, (parseChunkRun input stack).err = some (SaxErr.unclosedTag p) →
      (parseChunkRun input stack).stack = [] ∧
      ∃ s', evolve stack (parseChunkRun input stack).events = some s' ∧
        s'.getLast? = p) := by
  have hs : (parseLoopF (input.length + 1 - 0) input 0 stack).isSome :=
    parseLoopF_isSome input _ 0 stack (by omega)
  obtain ⟨r, hr⟩ := Option.isSome_iff_exists.mp hs
  have hrun : parseChunkRun input stack = r := by
    unfold parseChunkRun runFrom
    rw [hr]
    rfl
  obtain ⟨h1, h2⟩ := parseLoopF_stack input (input.length + 1 - 0) 0 stack r hr
  rw [hrun]
  refine ⟨fun hb => h1 ?_, h2⟩
  intro p hpe
  rw [hpe] at hb
  simp [isUnclosedTagErr] at hb

theorem c3_stack_discipline_witness :
    (evolve [] (parseChunkRun (String.toList "<a><b></b>") []).events
      = some (parseChunkRun (String.toList "<a><b></b>") []).stack) ∧
    ((parseChunkRun (String.toList "</x>") []).stack = [] ∧
      ∃ s', evolve [] (parseChunkRun (String.toList "</x>") []).events
        = some s' ∧ s'.getLast? = none) :=
  ⟨(c3_stack_discipline (String.toList "<a><b></b>") []).1 (by decide),
   (c3_stack_discipline (String.toList "</x>") []).2 none (by decide)⟩

theorem take_eq_append {pre : List Char} :
    ∀ {d : List Char} {n : Nat}, pre.length = n → d.take n = pre →
      ∃ t, d = pre ++ t := by
  induction pre with
  | nil => exact fun _ _ => ⟨_, rfl⟩
  | cons c p ih =>
    intro d n hn h
    subst hn
    cases d with
    | nil =>
      rw [List.take_nil] at h
      exact absurd h (by simp)
    | cons x d1 =>
      rw [List.length_cons, List.take_succ_cons] at h
      injection h with h1 h2
      obtain ⟨t, ht⟩ := ih rfl h2
      exact ⟨t, by simp [h1, ht]⟩

/-- **C10** (implicit; feeding the empty chunk is a no-op), confirmed over
the shape invariant `goodState` satisfied by every reachable state: on any
tag stack and any well-formed waiting slot — none, buffered text without
`<`, a `<!` prefix, an open CDATA section, comment, processing instruction
or tag fragment — writing the empty string re-parses exactly the buffered
data, emits no events, raises no error, and stores back the identical
waiting slot and tag stack. -/
theorem c10_empty_chunk_noop (s : SaxState) (hg : goodState s = true) :
    parseChunk s [] = ([], s, none) := by
  obtain ⟨w, stack⟩ := s
  cases w with
  | none => rfl
  | some w0 =>
    obtain ⟨k, d⟩ := w0
    cases k with
    | markupDeclaration =>
      simp only [goodState, goodWait, decide_eq_true_eq] at hg
      subst hg
      rfl
    | text =>
      simp only [goodState, goodWait, Bool.and_eq_true, decide_eq_true_eq] at hg
      obtain ⟨hne, hcon⟩ := hg
      have hmem : '<' ∉ d := fun hm => hcon (by simpa using hm)
      have hpos : 0 < d.length := by
        cases d with
        | nil => exact absurd rfl hne
        | cons c t => simp
      have hrun : parseChunkRun (d ++ []) stack
          = ⟨[], some (.text, d), stack, none⟩ := by
        rw [List.append_nil]
        unfold parseChunkRun
        rw [runFrom_step, if_pos hpos, if_neg (fun hc =>
          hmem (List.get?_mem hc))]
        rw [show jsIndexOfFrom d ['<'] 0
          = Option.map (fun i => i + 0) (subIdx ['<'] d) by
            unfold jsIndexOfFrom; rw [List.drop_zero]]
        rw [subIdx_single_none '<' d hmem]
        simp
      simp only [parseChunk, hrun]
    | tagClose => exact absurd hg (by simp [goodState, goodWait])
    | cdata =>
      simp only [goodState, goodWait, Bool.and_eq_true, decide_eq_true_eq] at hg
      obtain ⟨⟨htk, hg1⟩, hg2⟩ := hg
      obtain ⟨t, rfl⟩ := take_eq_append (by decide) htk
      have hg1' : (subIdx (t.take 6) cdataLit).isSome = true := hg1
      have hg2' : (subIdx (String.toList "]]>") (t.drop 6)).isNone = true := hg2
      have h1 : subIdx (String.toList "]]>") (t.drop 6) = none :=
        Option.isNone_iff_eq_none.mp hg2'
      have hht : handleTag (['<', '!', '['] ++ t) 0 stack
          = .done ⟨[], some (.cdata, ['<', '!', '['] ++ t), stack, none⟩ := by
        simp only [handleTag]
        rw [if_pos (show (['<', '!', '['] ++ t : List Char).get? (0 + 1)
          = some '!' from rfl)]
        rw [show (['<', '!', '['] ++ t : List Char).get? (0 + 1 + 1)
          = some '[' from rfl]
        dsimp only
        rw [if_pos (show '[' = '[' ∧ (subIdx
          (jsSlice (['<', '!', '['] ++ t) (0 + 1 + 1 + 1) (0 + 1 + 1 + 7))
          cdataLit).isSome = true from ⟨rfl, hg1'⟩)]
        rw [show jsIndexOfFrom (['<', '!', '['] ++ t) (String.toList "]]>")
          (0 + 1 + 1 + 7) = Option.map (fun i => i + (0 + 1 + 1 + 7))
            (subIdx (String.toList "]]>") (t.drop 6)) from rfl]
        rw [h1]
        rfl
      have hrun : parseChunkRun ((['<', '!', '['] ++ t) ++ []) stack
          = ⟨[], some (.cdata, ['<', '!', '['] ++ t), stack, none⟩ := by
        rw [List.append_nil]
        unfold parseChunkRun
        rw [runFrom_step, if_pos (by simp), if_pos (show
          (['<', '!', '['] ++ t : List Char).get? 0 = some '<' from rfl), hht]
      simp only [parseChunk, hrun]
    | comment =>
      simp only [goodState, goodWait, Bool.and_eq_true, decide_eq_true_eq] at hg
      obtain ⟨htk, hg1⟩ := hg
      obtain ⟨r, rfl⟩ := take_eq_append (by decide) htk
      have hg1' : (subIdx (String.toList "--") r).isNone = true := hg1
      have h1 : subIdx (String.toList "--") r = none :=
        Option.isNone_iff_eq_none.mp hg1'
      have hht : handleTag (['<', '!', '-', '-'] ++ r) 0 stack
          = .done ⟨[], some (.comment, ['<', '!', '-', '-'] ++ r),
            stack, none⟩ := by
        simp only [handleTag]
        rw [if_pos (show (['<', '!', '-', '-'] ++ r : List Char).get? (0 + 1)
          = some '!' from rfl)]
        rw [show (['<', '!', '-', '-'] ++ r : List Char).get? (0 + 1 + 1)
          = some '-' from rfl]
        dsimp only
        rw [if_neg (show ¬ ('-' = '[' ∧ (subIdx
          (jsSlice (['<', '!', '-', '-'] ++ r) (0 + 1 + 1 + 1)
            (0 + 1 + 1 + 7)) cdataLit).isSome = true) from fun hand =>
              absurd hand.1 (by decide))]
        rw [if_pos (show '-' = '-' ∧ (['<', '!', '-', '-'] ++ r
          : List Char).get? (0 + 1 + 1 + 1) = some '-' from ⟨rfl, rfl⟩)]
        rw [show jsIndexOfFrom (['<', '!', '-', '-'] ++ r)
          (String.toList "--") (0 + 1 + 1 + 2) = Option.map
            (fun i => i + (0 + 1 + 1 + 2)) (subIdx (String.toList "--") r)
            from rfl]
        rw [h1]
        rfl
      have hrun : parseChunkRun ((['<', '!', '-', '-'] ++ r) ++ []) stack
          = ⟨[], some (.comment, ['<', '!', '-', '-'] ++ r), stack, none⟩ := by
        rw [List.append_nil]
        unfold parseChunkRun
        rw [runFrom_step, if_pos (by simp), if_pos (show
          (['<', '!', '-', '-'] ++ r : List Char).get? 0 = some '<'
            from rfl), hht]
      simp only [parseChunk, hrun]
    | processingInstruction =>
      simp only [goodState, goodWait, Bool.and_eq_true, decide_eq_true_eq] at hg
      obtain ⟨htk, hg1⟩ := hg
      obtain ⟨r, rfl⟩ := take_eq_append (by decide) htk
      have hg1' : (subIdx (String.toList "?>") r).isNone = true := hg1
      have h1 : subIdx (String.toList "?>") r = none :=
        Option.isNone_iff_eq_none.mp hg1'
      have hht : handleTag (['<', '?'] ++ r) 0 stack
          = .done ⟨[], some (.processingInstruction, ['<', '?'] ++ r),
            stack, none⟩ := by
        simp only [handleTag]
        rw [if_neg (show ¬ ((['<', '?'] ++ r : List Char).get? (0 + 1)
          = some '!') from by simp)]
        rw [if_pos (show (['<', '?'] ++ r : List Char).get? (0 + 1)
          = some '?' from rfl)]
        rw [show jsIndexOfFrom (['<', '?'] ++ r) (String.toList "?>")
          (0 + 1 + 1) = Option.map (fun i => i + (0 + 1 + 1))
            (subIdx (String.toList "?>") r) from rfl]
        rw [h1]
        rfl
      have hrun : parseChunkRun ((['<', '?'] ++ r) ++ []) stack
          = ⟨[], some (.processingInstruction, ['<', '?'] ++ r),
            stack, none⟩ := by
        rw [List.append_nil]
        unfold parseChunkRun
        rw [runFrom_step, if_pos (by simp), if_pos (show
          (['<', '?'] ++ r : List Char).get? 0 = some '<' from rfl), hht]
      simp only [parseChunk, hrun]
    | tagOpen =>
      simp only [goodState, goodWait, Bool.and_eq_true, decide_eq_true_eq] at hg
      obtain ⟨⟨⟨htk, hcon⟩, hb⟩, hq⟩ := hg
      obtain ⟨r, rfl⟩ := take_eq_append (by decide) htk
      have hcon' : ¬ r.contains '>' = true := hcon
      have hb' : r.head? ≠ some '!' := hb
      have hq' : r.head? ≠ some '?' := hq
      have hmem : '>' ∉ r := fun hm => hcon' (by simpa using hm)
      have hget1 : (['<'] ++ r : List Char).get? (0 + 1) = r.head? := by
        rw [show (0 + 1 : Nat) = 1 from rfl,
          show (['<'] ++ r : List Char) = '<' :: r from rfl,
          List.get?_cons_succ, List.get?_zero]
      have hht : handleTag (['<'] ++ r) 0 stack
          = .done ⟨[], some (.tagOpen, ['<'] ++ r), stack, none⟩ := by
        simp only [handleTag]
        rw [hget1, if_neg hb', if_neg hq']
        rw [show jsIndexOfFrom (['<'] ++ r) ['>'] (0 + 1)
          = Option.map (fun i => i + (0 + 1)) (subIdx ['>'] r) from rfl]
        rw [subIdx_single_none '>' r hmem]
        rfl
      have hrun : parseChunkRun ((['<'] ++ r) ++ []) stack
          = ⟨[], some (.tagOpen, ['<'] ++ r), stack, none⟩ := by
        rw [List.append_nil]
        unfold parseChunkRun
        rw [runFrom_step, if_pos (by simp), if_pos (show
          (['<'] ++ r : List Char).get? 0 = some '<' from rfl), hht]
      simp only [parseChunk, hrun]

theorem c10_empty_chunk_noop_witness :
    goodState ⟨some (NodeKind.tagOpen, String.toList "<ta"), [['r']]⟩ = true ∧
    parseChunk ⟨some (NodeKind.tagOpen, String.toList "<ta"), [['r']]⟩ []
      = ([], ⟨some (NodeKind.tagOpen, String.toList "<ta"), [['r']]⟩, none) :=
  ⟨by decide, c10_empty_chunk_noop
    ⟨some (NodeKind.tagOpen, String.toList "<ta"), [['r']]⟩ (by decide)⟩

theorem get?_length_pred : ∀ (c : Char) (t : List Char),
    (c :: t).get? t.length = (c :: t).getLast? := by
  intro c t
  induction t generalizing c with
  | nil => rfl
  | cons b t ih =>
    show (c :: b :: t).get? (t.length + 1) = (c :: b :: t).getLast?
    rw [List.get?_cons_succ, ih b]
    rfl

theorem pIdx_append_eq {p : Char → Bool} {l r : List Char}
    (hr : pIdx p r = none) : pIdx p (l ++ r) = pIdx p l := by
  cases hl : pIdx p l with
  | none => exact pIdx_append_none hl hr
  | some w => exact pIdx_append_some hl r

theorem take_length_eq_dropLast : ∀ (c : Char) (t : List Char),
    (c :: t).take t.length = (c :: t).dropLast := by
  intro c t
  induction t generalizing c with
  | nil => rfl
  | cons b t ih =>
    show (c :: b :: t).take (t.length + 1) = (c :: b :: t).dropLast
    rw [List.take_succ_cons, ih b]
    rfl

theorem take_dropLast_eq (c : Char) (t : List Char) {w : Nat} (h : w ≤ t.length) :
    (c :: t).dropLast.take w = (c :: t).take w := by
  rw [← take_length_eq_dropLast, List.take_take]
  congr 1
  omega

theorem handleTag_plain_open (J I : List Char) (sc : Bool)
    (stack : List (List Char)) (hne : J ≠ [])
    (hb : J.head? ≠ some '!') (hq : J.head? ≠ some '?') (hs : J.head? ≠ some '/')
    (hgt : '>' ∉ J)
    (hsc : sc = decide (J.getLast? = some '/'))
    (hI : I = if sc then J.dropLast else J) :
    handleTag ('<' :: J ++ ['>']) 0 stack =
      match pIdx isJsWs I with
      | none => .cont [.tagOpen I [] sc] (J.length + 2)
          (if sc then stack else stack ++ [I])
      | some w =>
        if w = 0 then .done ⟨[], none, stack, some .tagNameWhitespace⟩
        else .cont [.tagOpen (I.take w) (I.drop w) sc] (J.length + 2)
          (if sc then stack else stack ++ [I.take w]) := by
  obtain ⟨c, t, rfl⟩ : ∃ c t, J = c :: t := by
    cases J with
    | nil => exact absurd rfl hne
    | cons c t => exact ⟨c, t, rfl⟩
  have hc1 : c ≠ '!' := fun he => hb (by rw [List.head?_cons, he])
  have hc2 : c ≠ '?' := fun he => hq (by rw [List.head?_cons, he])
  have hc3 : c ≠ '/' := fun he => hs (by rw [List.head?_cons, he])
  have hg1 : ('<' :: (c :: t) ++ ['>']).get? (0 + 1) = some c := rfl
  have hidx : jsIndexOfFrom ('<' :: (c :: t) ++ ['>']) ['>'] (0 + 1)
      = some (t.length + 2) := by
    unfold jsIndexOfFrom
    have hdrop : ('<' :: (c :: t) ++ ['>']).drop (0 + 1) = (c :: t) ++ ['>'] := rfl
    rw [hdrop, subIdx_single_app '>' (c :: t) [] hgt]
    simp only [Option.map_some', List.length_cons]
  have hdrop1 : ('<' :: (c :: t) ++ ['>']).drop (0 + 1) = (c :: t) ++ ['>'] := rfl
  have hglast : ('<' :: (c :: t) ++ ['>']).get? (t.length + 2 - 1)
      = (c :: t).getLast? := by
    have h1 : ('<' :: (c :: t) ++ ['>']).get? (t.length + 2 - 1)
        = ((c :: t) ++ ['>']).get? t.length := by
      show ('<' :: ((c :: t) ++ ['>'])).get? (t.length + 1) = _
      exact List.get?_cons_succ
    have h2 : ((c :: t) ++ ['>']).get? t.length = (c :: t).get? t.length :=
      List.get?_append (by simp)
    rw [h1, h2, get?_length_pred]
  simp only [handleTag]
  rw [hg1, if_neg (by simpa using hc1), if_neg (by simpa using hc2), hidx]
  dsimp only
  rw [if_neg (by simpa using hc3)]
  rw [hglast]
  by_cases hsl : (c :: t).getLast? = some '/'
  · have hscT : sc = true := by rw [hsc]; exact decide_eq_true hsl
    have hIe : I = (c :: t).dropLast := by rw [hI, hscT]; simp
    subst hIe
    rw [hscT]
    simp only [eq_true hsl, if_true, decide_True]
    have hne2 : (c :: t) ≠ [] := by simp
    have hgl := List.getLast?_eq_getLast (c :: t) hne2
    rw [hgl] at hsl
    injection hsl with hsl2
    have hJ : (c :: t).dropLast ++ ['/'] = c :: t := by
      rw [← hsl2]
      exact List.dropLast_append_getLast hne2
    have hpeq : pIdx isJsWs ((c :: t) ++ ['>'])
        = pIdx isJsWs ((c :: t).dropLast) := by
      conv_lhs => rw [← hJ]
      rw [List.append_assoc]
      exact pIdx_append_eq (by decide)
    rw [hdrop1, hpeq]
    have hlen : (c :: t).dropLast.length = t.length := by simp
    cases hw : pIdx isJsWs ((c :: t).dropLast) with
    | none =>
      dsimp only
      have hname : jsSlice ('<' :: (c :: t) ++ ['>']) (0 + 1) (t.length + 2 - 1)
          = (c :: t).dropLast := by
        show (('<' :: (c :: t) ++ ['>']).drop (0 + 1)).take
          (t.length + 2 - 1 - (0 + 1)) = (c :: t).dropLast
        rw [hdrop1, show t.length + 2 - 1 - (0 + 1) = t.length by omega,
          take_append_le (by simp), take_length_eq_dropLast]
      rw [hname]
      simp [List.length_cons]
    | some w =>
      have hwlt : w < t.length := by
        have hlt := pIdx_lt hw
        rwa [hlen] at hlt
      dsimp only
      rw [if_neg (show ¬ (t.length + 2 - (0 + 1) ≤ w) by omega)]
      by_cases hw0 : w = 0
      · rw [if_pos hw0, if_pos hw0]
      · rw [if_neg hw0, if_neg hw0]
        have hname : jsSlice ('<' :: (c :: t) ++ ['>']) (0 + 1) (0 + 1 + w)
            = (c :: t).dropLast.take w := by
          show (('<' :: (c :: t) ++ ['>']).drop (0 + 1)).take (0 + 1 + w - (0 + 1))
            = (c :: t).dropLast.take w
          rw [hdrop1, show 0 + 1 + w - (0 + 1) = w by omega,
            take_append_le (by simp; omega), take_dropLast_eq c t (by omega)]
        have hattrs : jsSlice ('<' :: (c :: t) ++ ['>']) (0 + 1 + w)
            (t.length + 2 - 1) = (c :: t).dropLast.drop w := by
          show (('<' :: (c :: t) ++ ['>']).drop (0 + 1 + w)).take
            (t.length + 2 - 1 - (0 + 1 + w)) = (c :: t).dropLast.drop w
          have hd2 : ('<' :: (c :: t) ++ ['>']).drop (0 + 1 + w)
              = (c :: t).dropLast.drop w ++ (['/'] ++ ['>']) := by
            rw [show 0 + 1 + w = w + 1 by omega]
            show ((c :: t) ++ ['>']).drop w = _
            conv_lhs => rw [← hJ]
            rw [List.append_assoc, drop_append_le (by rw [hlen]; omega)]
          rw [hd2, show t.length + 2 - 1 - (0 + 1 + w)
            = ((c :: t).dropLast.drop w).length by simp [hlen]; omega,
            take_append_le (le_refl _), List.take_length]
        rw [hname, hattrs]
        simp [List.length_cons]
  · have hscF : sc = false := by rw [hsc]; exact decide_eq_false hsl
    have hIe : I = c :: t := by rw [hI, hscF]; simp
    subst hIe
    rw [hscF]
    simp only [eq_false hsl, if_false, decide_False]
    rw [hdrop1]
    cases hw : pIdx isJsWs (c :: t) with
    | none =>
      rw [pIdx_append_none hw (by decide)]
      dsimp only
      have hslice : jsSlice ('<' :: (c :: t) ++ ['>']) (0 + 1) (t.length + 2)
          = c :: t := by
        show (('<' :: (c :: t) ++ ['>']).drop (0 + 1)).take
          (t.length + 2 - (0 + 1)) = c :: t
        rw [hdrop1, show t.length + 2 - (0 + 1) = (c :: t).length by simp,
          take_append_le (le_refl _), List.take_length]
      rw [hslice]
      simp [List.length_cons]
    | some w =>
      rw [pIdx_append_some hw ['>']]
      have hwlt : w < t.length + 1 := by
        have hlt := pIdx_lt hw
        simpa using hlt
      dsimp only
      rw [if_neg (show ¬ (t.length + 2 - (0 + 1) ≤ w) by omega)]
      by_cases hw0 : w = 0
      · rw [if_pos hw0, if_pos hw0]
      · rw [if_neg hw0, if_neg hw0]
        have hname : jsSlice ('<' :: (c :: t) ++ ['>']) (0 + 1) (0 + 1 + w)
            = (c :: t).take w := by
          show (('<' :: (c :: t) ++ ['>']).drop (0 + 1)).take (0 + 1 + w - (0 + 1))
            = (c :: t).take w
          rw [hdrop1, show 0 + 1 + w - (0 + 1) = w by omega,
            take_append_le (by simp; omega)]
        have hattrs : jsSlice ('<' :: (c :: t) ++ ['>']) (0 + 1 + w)
            (t.length + 2) = (c :: t).drop w := by
          show (('<' :: (c :: t) ++ ['>']).drop (0 + 1 + w)).take
            (t.length + 2 - (0 + 1 + w)) = (c :: t).drop w
          have hd2 : ('<' :: (c :: t) ++ ['>']).drop (0 + 1 + w)
              = (c :: t).drop w ++ ['>'] := by
            rw [show 0 + 1 + w = w + 1 by omega]
            show ((c :: t) ++ ['>']).drop w = _
            exact drop_append_le (by simp; omega)
          rw [hd2, show t.length + 2 - (0 + 1 + w) = ((c :: t).drop w).length by
            simp; omega]
          rw [take_append_le (le_refl _), List.take_length]
        rw [hname, hattrs]
        simp [List.length_cons]

/-- **C5**, amended: for every complete opening tag `<J>` — interior `J`
not starting with `/`, `!` or `?`, containing no `>` — with `sc` the
self-closing flag (a trailing `/`, exactly the code's test on the
character before `>`) and `I` the interior with that trailing `/`
stripped, the token is split at the first character of `I` matching the
JS `/\s/` class (`isJsWs`), not merely {space, tab, CR, LF}: if no such
character occurs the token is `tagOpen I "" sc`; if the first occurs at
`w > 0` the name is `I.take w` and the raw attributes are `I.drop w`
(including the leading whitespace); if `I` starts with such a character
the fatal error `Tag names may not start with whitespace` is raised.
Non-self-closing tags push their name; self-closing ones do not. -/
theorem c5_tag_splitting_amended (J I : List Char) (sc : Bool)
    (hb : J.head? ≠ some '!') (hq : J.head? ≠ some '?') (hs : J.head? ≠ some '/')
    (hgt : '>' ∉ J)
    (hsc : sc = decide (J.getLast? = some '/'))
    (hI : I = if sc then J.dropLast else J) :
    (pIdx isJsWs I = none →
      parseChunkRun ('<' :: J ++ ['>']) [] =
        ⟨[Event.tagOpen I [] sc], none, if sc then [] else [I], none⟩) ∧
    (∀ w, pIdx isJsWs I = some w → 0 < w →
      parseChunkRun ('<' :: J ++ ['>']) [] =
        ⟨[Event.tagOpen (I.take w) (I.drop w) sc], none,
          if sc then [] else [I.take w], none⟩) ∧
    (pIdx isJsWs I = some 0 →
      parseChunkRun ('<' :: J ++ ['>']) [] =
        ⟨[], none, [], some SaxErr.tagNameWhitespace⟩) := by
  cases J with
  | nil =>
    have hscF : sc = false := by rw [hsc]; decide
    have hIe : I = [] := by rw [hI, hscF]; simp
    subst hIe
    rw [hscF]
    refine ⟨fun _ => by decide, fun w hw _ => ?_, fun hw => ?_⟩
    · simp [pIdx] at hw
    · simp [pIdx] at hw
  | cons c t =>
    have hht := handleTag_plain_open (c :: t) I sc [] (by simp) hb hq hs hgt hsc hI
    refine ⟨fun hw => ?_, fun w hw hw0 => ?_, fun hw => ?_⟩
    · rw [hw] at hht
      dsimp only at hht
      unfold parseChunkRun
      rw [runFrom_step, if_pos (by simp), if_pos (show
        ('<' :: (c :: t) ++ ['>']).get? 0 = some '<' from rfl), hht]
      dsimp only
      rw [runFrom_step, if_neg (by simp)]
      cases sc <;> simp
    · rw [hw] at hht
      dsimp only at hht
      rw [if_neg (by omega)] at hht
      unfold parseChunkRun
      rw [runFrom_step, if_pos (by simp), if_pos (show
        ('<' :: (c :: t) ++ ['>']).get? 0 = some '<' from rfl), hht]
      dsimp only
      rw [runFrom_step, if_neg (by simp)]
      cases sc <;> simp
    · rw [hw] at hht
      dsimp only at hht
      rw [if_pos rfl] at hht
      unfold parseChunkRun
      rw [runFrom_step, if_pos (by simp), if_pos (show
        ('<' :: (c :: t) ++ ['>']).get? 0 = some '<' from rfl), hht]

theorem c5_tag_splitting_amended_witness :
    parseChunkRun (String.toList "<br/>") [] =
      ⟨[Event.tagOpen (String.toList "br") [] true], none, [], none⟩ ∧
    parseChunkRun (String.toList "<a b/>") [] =
      ⟨[Event.tagOpen ['a'] [' ', 'b'] true], none, [], none⟩ ∧
    parseChunkRun (String.toList "<a/b>") [] =
      ⟨[Event.tagOpen (String.toList "a/b") [] false], none,
        [String.toList "a/b"], none⟩ :=
  ⟨(c5_tag_splitting_amended ['b', 'r', '/'] ['b', 'r'] true (by decide)
      (by decide) (by decide) (by decide) (by decide) (by decide)).1 (by decide),
   (c5_tag_splitting_amended ['a', ' ', 'b', '/'] ['a', ' ', 'b'] true
      (by decide) (by decide) (by decide) (by decide) (by decide)
      (by decide)).2.1 1 (by decide) (by decide),
   (c5_tag_splitting_amended ['a', '/', 'b'] ['a', '/', 'b'] false (by decide)
      (by decide) (by decide) (by decide) (by decide) (by decide)).1 (by decide)⟩
